import Mathlib

/-!
A shallow embedding of the igraph core graph storage structure and of the
operations declared in `src/igraph.h`, together with proofs about them.

Only the public header of the library is present in the repository; the
bodies of the declared functions are therefore modelled from the
specification's description of their behaviour.  Definitions whose doc
comment starts with "Modelled from the spec:" embed such a declared but
not implemented operation.
-/

/-- Direction modes for neighbor queries (`igraph_neimode_t` in igraph.h). -/
inductive igraph_neimode_t where
  | IGRAPH_OUT
  | IGRAPH_IN
  | IGRAPH_ALL
deriving DecidableEq, Repr

/-- Error codes from the error-handling section of igraph.h. -/
inductive igraph_error_t where
  | IGRAPH_FAILURE
  | IGRAPH_ENOMEM
  | IGRAPH_PARSEERROR
  | IGRAPH_EINVAL
  | IGRAPH_EXISTS
  | IGRAPH_EINVEVECTOR
  | IGRAPH_EINVVID
  | IGRAPH_NONSQUARE
  | IGRAPH_EINVMODE
  | IGRAPH_EFILE
deriving DecidableEq, Repr

/-- The graph storage structure `igraph_s` / `igraph_t` of igraph.h: vertex
count `n`, directedness flag, and the two edge-endpoint columns `from` and
`to` (edge `k` goes from `from[k]` to `to[k]`, insertion order is the
canonical edge id space).  The four index vectors `oi`, `ii`, `os`, `is` of
the C struct are derived, always-rebuilt state (spec section 9); they are
modelled below as functions of this core.  The attribute lists of the C
struct belong to the external attribute subsystem and are out of scope. -/
structure igraph_t where
  n : Nat
  directed : Bool
  «from» : List Nat
  «to» : List Nat
deriving DecidableEq, Repr

/-- Number of edges: the length of the edge-list columns. -/
def no_of_edges (g : igraph_t) : Nat := g.«from».length

/-- igraph_vcount: the number of vertices. -/
def igraph_vcount (g : igraph_t) : Nat := g.n

/-- igraph_ecount: the number of edges. -/
def igraph_ecount (g : igraph_t) : Nat := no_of_edges g

/-- igraph_is_directed. -/
def igraph_is_directed (g : igraph_t) : Bool := g.directed

/-- The first endpoint of edge `k` (column `from`). -/
def fromAt (g : igraph_t) (k : Nat) : Nat := g.«from».getD k 0

/-- The second endpoint of edge `k` (column `to`). -/
def toAt (g : igraph_t) (k : Nat) : Nat := g.«to».getD k 0

/-- Lexicographic order on edge ids by `(from, to)`: the sort order of the
index vector `oi` (spec section 3). -/
abbrev outRel (g : igraph_t) (a b : Nat) : Prop :=
  fromAt g a < fromAt g b ∨ (fromAt g a = fromAt g b ∧ toAt g a ≤ toAt g b)

/-- Lexicographic order on edge ids by `(to, from)`: the sort order of the
index vector `ii` (spec section 3). -/
abbrev inRel (g : igraph_t) (a b : Nat) : Prop :=
  toAt g a < toAt g b ∨ (toAt g a = toAt g b ∧ fromAt g a ≤ fromAt g b)

/-- The index vector `oi` (`orderByFrom`): the permutation of `[0,E)`
sorted lexicographically by `(from, to)`.  Derived state, rebuilt from the
edge list (spec sections 3 and 9). -/
def oi (g : igraph_t) : List Nat :=
  List.insertionSort (outRel g) (List.range (no_of_edges g))

/-- The index vector `ii` (`orderByTo`): the permutation of `[0,E)` sorted
lexicographically by `(to, from)`. -/
def ii (g : igraph_t) : List Nat :=
  List.insertionSort (inRel g) (List.range (no_of_edges g))

/-- Entry `v` of the offset vector `os` (`outOffset`): the number of edges
whose `from` endpoint is below `v`; `os[v]..os[v+1]` is the index range of
the edges leaving `v` inside `oi`. -/
def osAt (g : igraph_t) (v : Nat) : Nat :=
  (List.range (no_of_edges g)).countP (fun k => decide (fromAt g k < v))

/-- Entry `v` of the offset vector `is` (`inOffset`), symmetric to `os`. -/
def isAt (g : igraph_t) (v : Nat) : Nat :=
  (List.range (no_of_edges g)).countP (fun k => decide (toAt g k < v))

/-- The slice of `oi` holding the edges with `from = v`
(`neighborRange(v, OUT)` as edge ids). -/
def outRange (g : igraph_t) (v : Nat) : List Nat :=
  ((oi g).drop (osAt g v)).take (osAt g (v + 1) - osAt g v)

/-- The slice of `ii` holding the edges with `to = v`
(`neighborRange(v, IN)` as edge ids). -/
def inRange (g : igraph_t) (v : Nat) : List Nat :=
  ((ii g).drop (isAt g v)).take (isAt g (v + 1) - isAt g v)

/-- Modelled from the spec: `igraph_neighbors` (declared in igraph.h, body
in the missing basic-interface source file).  `OUT` scans the `oi` slice of
`vid`, `IN` the `ii` slice, and `ALL` concatenates both ranges without
deduplication (spec sections 4.1 and 9). -/
def igraph_neighbors (g : igraph_t) (vid : Nat) : igraph_neimode_t → List Nat
  | .IGRAPH_OUT => (outRange g vid).map (toAt g)
  | .IGRAPH_IN => (inRange g vid).map (fromAt g)
  | .IGRAPH_ALL => (outRange g vid).map (toAt g) ++ (inRange g vid).map (fromAt g)

/-- Modelled from the spec: `igraph_degree` (declared in igraph.h, body
missing) for a single vertex: the number of incident edges in the given
mode; with `loops = false` self-loops are not counted. -/
def igraph_degree (g : igraph_t) (v : Nat) (mode : igraph_neimode_t)
    (loops : Bool) : Nat :=
  if loops then (igraph_neighbors g v mode).length
  else ((igraph_neighbors g v mode).filter (fun w => decide (w ≠ v))).length

/-- Modelled from the spec: `igraph_are_connected` (declared in igraph.h,
body missing).  Searches `neighborRange(v1, OUT)` for `v2`, and for an
undirected graph also the `IN` range, since an undirected edge is stored
only once (igraph.h doc of `igraph_s`, spec section 4.1). -/
def igraph_are_connected (g : igraph_t) (v1 v2 : Nat) : Bool :=
  (igraph_neighbors g v1 .IGRAPH_OUT).contains v2 ||
    (!g.directed && (igraph_neighbors g v1 .IGRAPH_IN).contains v2)

/-- Groups a flattened edge vector into `(from, to)` pairs, clamping the
ids to `Nat` (they are validated before use). -/
def pairsOf : List Int → List (Nat × Nat)
  | a :: b :: rest => (a.toNat, b.toNat) :: pairsOf rest
  | _ => []

/-- Keeps the elements of a list whose position satisfies `p`; `i` is the
position of the first element.  Used for edge-id compaction. -/
def keepAux {α : Type} (p : Nat → Bool) : Nat → List α → List α
  | _, [] => []
  | i, a :: rest =>
      if p i then a :: keepAux p (i + 1) rest else keepAux p (i + 1) rest

/-- Renumbering after vertex deletion: a surviving vertex id drops by the
number of deleted ids below it (spec section 3). -/
def renum (del : List Nat) (v : Nat) : Nat :=
  v - del.countP (fun d => decide (d < v))

/-- Modelled from the spec: `igraph_empty` (declared in igraph.h, body
missing).  Creates a graph with `n` vertices and no edges; fails only on
negative `n` (spec section 4.1 `createEmpty`). -/
def igraph_empty (n : Int) (directed : Bool) : Except igraph_error_t igraph_t :=
  if n < 0 then .error .IGRAPH_EINVAL
  else .ok ⟨n.toNat, directed, [], []⟩

/-- Modelled from the spec: `igraph_add_vertices` (declared in igraph.h,
body missing).  Appends `nv` new vertex ids at the top of the id space;
fails on a negative count and leaves the graph unchanged then. -/
def igraph_add_vertices (g : igraph_t) (nv : Int) :
    Except igraph_error_t igraph_t :=
  if nv < 0 then .error .IGRAPH_EINVAL
  else .ok ⟨g.n + nv.toNat, g.directed, g.«from», g.«to»⟩

/-- Modelled from the spec: `igraph_add_edges` (declared in igraph.h, body
missing).  Appends the flattened `(from, to)` pairs to the two edge
columns; fails with an invalid-edge-vector error, leaving the graph
unchanged, if the vector has odd length or any id is out of range
(spec section 4.1). -/
def igraph_add_edges (g : igraph_t) (edges : List Int) :
    Except igraph_error_t igraph_t :=
  if edges.length % 2 ≠ 0 then .error .IGRAPH_EINVEVECTOR
  else if edges.any (fun x => decide (x < 0) || decide ((g.n : Int) ≤ x)) then
    .error .IGRAPH_EINVEVECTOR
  else
    .ok ⟨g.n, g.directed,
      g.«from» ++ (pairsOf edges).map Prod.fst,
      g.«to» ++ (pairsOf edges).map Prod.snd⟩

/-- Modelled from the spec: `igraph_delete_edges` (declared in igraph.h,
body missing).  Removes the given canonical edge ids, compacting both
columns while keeping the relative order of the surviving edges; duplicate
or out-of-range ids are an error that leaves the graph unchanged
(spec section 4.1). -/
def igraph_delete_edges (g : igraph_t) (edges : List Int) :
    Except igraph_error_t igraph_t :=
  if edges.any (fun x => decide (x < 0) || decide ((no_of_edges g : Int) ≤ x)) then
    .error .IGRAPH_EINVEVECTOR
  else if ¬ edges.Nodup then .error .IGRAPH_EINVEVECTOR
  else
    let del := edges.map Int.toNat
    let kept := keepAux (fun i => !del.contains i) 0 (g.«from».zip g.«to»)
    .ok ⟨g.n, g.directed, kept.map Prod.fst, kept.map Prod.snd⟩

/-- Modelled from the spec: `igraph_delete_vertices` (declared in
igraph.h, body missing).  Removes the given vertex ids (errors on
out-of-range or duplicate ids, leaving the graph unchanged), drops every
edge with a deleted endpoint, and renumbers the surviving vertex ids
contiguously (spec section 4.1). -/
def igraph_delete_vertices (g : igraph_t) (vertices : List Int) :
    Except igraph_error_t igraph_t :=
  if vertices.any (fun x => decide (x < 0) || decide ((g.n : Int) ≤ x)) then
    .error .IGRAPH_EINVVID
  else if ¬ vertices.Nodup then .error .IGRAPH_EINVVID
  else
    let del := vertices.map Int.toNat
    let kept := (g.«from».zip g.«to»).filter
      (fun p => !del.contains p.1 && !del.contains p.2)
    .ok ⟨g.n - del.length, g.directed,
      kept.map (fun p => renum del p.1),
      kept.map (fun p => renum del p.2)⟩

/-- The four mutation operations of the basic interface. -/
inductive MutOp where
  | addVertices (nv : Int)
  | addEdges (edges : List Int)
  | deleteEdges (edges : List Int)
  | deleteVertices (vertices : List Int)

/-- Dispatches a mutation operation to its implementation. -/
def applyMut (g : igraph_t) : MutOp → Except igraph_error_t igraph_t
  | .addVertices nv => igraph_add_vertices g nv
  | .addEdges es => igraph_add_edges g es
  | .deleteEdges es => igraph_delete_edges g es
  | .deleteVertices vs => igraph_delete_vertices g vs

/-- The graph state observable after a mutation call: the new graph on
success, the untouched old graph on failure. -/
def mutRun (g : igraph_t) (op : MutOp) : igraph_t :=
  match applyMut g op with
  | .ok g' => g'
  | .error _ => g

/-- Runs a sequence of mutation calls, stopping at the first failure. -/
def runMuts (g : igraph_t) : List MutOp → Except igraph_error_t igraph_t
  | [] => .ok g
  | op :: rest =>
      match applyMut g op with
      | .ok g' => runMuts g' rest
      | .error e => .error e

/-- The invalid-argument conditions of the four mutations, stated
declaratively (spec sections 4.1 and 7). -/
def MutInvalid (g : igraph_t) : MutOp → Prop
  | .addVertices nv => nv < 0
  | .addEdges es => es.length % 2 ≠ 0 ∨ ∃ x ∈ es, x < 0 ∨ (g.n : Int) ≤ x
  | .deleteEdges es =>
      (∃ x ∈ es, x < 0 ∨ (no_of_edges g : Int) ≤ x) ∨ ¬ es.Nodup
  | .deleteVertices vs =>
      (∃ x ∈ vs, x < 0 ∨ (g.n : Int) ≤ x) ∨ ¬ vs.Nodup

/-- Basic consistency of the stored state: the two edge columns have equal
length and every endpoint is a valid vertex id. -/
def WellFormed (g : igraph_t) : Prop :=
  g.«to».length = g.«from».length ∧
    (∀ a ∈ g.«from», a < g.n) ∧ (∀ b ∈ g.«to», b < g.n)

/-- The data-model invariants of spec sections 3 and 8: offsets start at 0,
end at `E`, are non-decreasing, and `oi`/`ii` are permutations of `[0,E)`
sorted lexicographically by `(from, to)` resp. `(to, from)`. -/
def InvariantHolds (g : igraph_t) : Prop :=
  osAt g 0 = 0 ∧ isAt g 0 = 0 ∧
  osAt g g.n = no_of_edges g ∧ isAt g g.n = no_of_edges g ∧
  (∀ u v, u ≤ v → osAt g u ≤ osAt g v) ∧
  (∀ u v, u ≤ v → isAt g u ≤ isAt g v) ∧
  (oi g).Perm (List.range (no_of_edges g)) ∧
  (ii g).Perm (List.range (no_of_edges g)) ∧
  (oi g).Pairwise (outRel g) ∧ (ii g).Pairwise (inRel g)

/-- The number of stored edges whose endpoint set is `{a, b}` (in either
orientation). -/
def edgesBetween (g : igraph_t) (a b : Nat) : Nat :=
  (List.range (no_of_edges g)).countP (fun k =>
    (decide (fromAt g k = a) && decide (toAt g k = b)) ||
      (decide (fromAt g k = b) && decide (toAt g k = a)))

/-- The traversal kind of an iterator, together with its construction
parameters (igraph.h iterator constants VID, VNEIS, EID, EFROMORDER,
ENEIS). -/
inductive iter_kind_t where
  | vid
  | vneis (v : Nat) (mode : igraph_neimode_t)
  | eid
  | efromorder
  | eneis (v : Nat) (mode : igraph_neimode_t)
deriving DecidableEq, Repr

/-- Modelled from the spec: the iterator state `igraph_iterator_t`
(igraph.h stores a type tag, an opaque data pointer and a dispatch table of
function pointers; the bodies installing them are missing).  The data is a
current position inside the traversal domain of the kind; the function
pointer table is modelled by dispatch on the kind tag. -/
structure igraph_iterator_t where
  kind : iter_kind_t
  pos : Nat
deriving DecidableEq, Repr

/-- The edge-id range an `eneis` iterator traverses: the `OUT` slice, the
`IN` slice, or their concatenation (spec section 4.2). -/
def eneisRange (g : igraph_t) (v : Nat) : igraph_neimode_t → List Nat
  | .IGRAPH_OUT => outRange g v
  | .IGRAPH_IN => inRange g v
  | .IGRAPH_ALL => outRange g v ++ inRange g v

/-- The traversal domain of an iterator kind, as a list of vertex ids (vid,
vneis) or edge ids (eid, efromorder, eneis). -/
def iterDomain (g : igraph_t) : iter_kind_t → List Nat
  | .vid => List.range g.n
  | .vneis v mode => igraph_neighbors g v mode
  | .eid => List.range (no_of_edges g)
  | .efromorder => oi g
  | .eneis v mode => eneisRange g v mode

/-- Modelled from the spec: constructor `igraph_iterator_vid` (declared in
igraph.h, body missing): an all-vertex iterator starting at the first
position. -/
def igraph_iterator_vid (_g : igraph_t) : igraph_iterator_t := ⟨.vid, 0⟩

/-- Modelled from the spec: constructor `igraph_iterator_vneis`. -/
def igraph_iterator_vneis (_g : igraph_t) (v : Nat) (mode : igraph_neimode_t) :
    igraph_iterator_t := ⟨.vneis v mode, 0⟩

/-- Modelled from the spec: constructor `igraph_iterator_eid`. -/
def igraph_iterator_eid (_g : igraph_t) : igraph_iterator_t := ⟨.eid, 0⟩

/-- Modelled from the spec: constructor `igraph_iterator_efromorder`. -/
def igraph_iterator_efromorder (_g : igraph_t) : igraph_iterator_t :=
  ⟨.efromorder, 0⟩

/-- Modelled from the spec: constructor `igraph_iterator_eneis`. -/
def igraph_iterator_eneis (_g : igraph_t) (v : Nat) (mode : igraph_neimode_t) :
    igraph_iterator_t := ⟨.eneis v mode, 0⟩

/-- Modelled from the spec: `igraph_end_vid` — true when the position is
one past the last vertex.  On an iterator of another kind (whose data the C
code would misread) the model reports the end state. -/
def igraph_end_vid (g : igraph_t) (it : igraph_iterator_t) : Bool :=
  match it.kind with
  | .vid => decide (g.n ≤ it.pos)
  | _ => true

/-- Modelled from the spec: `igraph_next_vid` — fails with an out-of-bounds
error when already at the end, otherwise advances one position. -/
def igraph_next_vid (g : igraph_t) (it : igraph_iterator_t) :
    Except igraph_error_t igraph_iterator_t :=
  match it.kind with
  | .vid =>
      if g.n ≤ it.pos then .error .IGRAPH_EINVAL
      else .ok ⟨it.kind, it.pos + 1⟩
  | _ => .error .IGRAPH_EINVAL

/-- Modelled from the spec: `igraph_prev_vid` — fails at the first
position, otherwise steps back one position. -/
def igraph_prev_vid (_g : igraph_t) (it : igraph_iterator_t) :
    Except igraph_error_t igraph_iterator_t :=
  match it.kind with
  | .vid =>
      if it.pos = 0 then .error .IGRAPH_EINVAL
      else .ok ⟨it.kind, it.pos - 1⟩
  | _ => .error .IGRAPH_EINVAL

/-- Modelled from the spec: `igraph_reset_vid` — rewinds to the first
position. -/
def igraph_reset_vid (_g : igraph_t) (it : igraph_iterator_t) :
    igraph_iterator_t := ⟨it.kind, 0⟩

/-- Modelled from the spec: `igraph_get_vertex_vid` — the vertex id at the
current position. -/
def igraph_get_vertex_vid (g : igraph_t) (it : igraph_iterator_t) : Nat :=
  match it.kind with
  | .vid => (List.range g.n).getD it.pos 0
  | _ => 0

/-- Modelled from the spec: `igraph_end_vneis`. -/
def igraph_end_vneis (g : igraph_t) (it : igraph_iterator_t) : Bool :=
  match it.kind with
  | .vneis v mode => decide ((igraph_neighbors g v mode).length ≤ it.pos)
  | _ => true

/-- Modelled from the spec: `igraph_next_vneis`. -/
def igraph_next_vneis (g : igraph_t) (it : igraph_iterator_t) :
    Except igraph_error_t igraph_iterator_t :=
  match it.kind with
  | .vneis v mode =>
      if (igraph_neighbors g v mode).length ≤ it.pos then .error .IGRAPH_EINVAL
      else .ok ⟨it.kind, it.pos + 1⟩
  | _ => .error .IGRAPH_EINVAL

/-- Modelled from the spec: `igraph_reset_vneis`. -/
def igraph_reset_vneis (_g : igraph_t) (it : igraph_iterator_t) :
    igraph_iterator_t := ⟨it.kind, 0⟩

/-- Modelled from the spec: `igraph_get_vertex_vneis` — the neighbor vertex
at the current position. -/
def igraph_get_vertex_vneis (g : igraph_t) (it : igraph_iterator_t) : Nat :=
  match it.kind with
  | .vneis v mode => (igraph_neighbors g v mode).getD it.pos 0
  | _ => 0

/-- Modelled from the spec: `igraph_end_eid`. -/
def igraph_end_eid (g : igraph_t) (it : igraph_iterator_t) : Bool :=
  match it.kind with
  | .eid => decide (no_of_edges g ≤ it.pos)
  | _ => true

/-- Modelled from the spec: `igraph_next_eid`. -/
def igraph_next_eid (g : igraph_t) (it : igraph_iterator_t) :
    Except igraph_error_t igraph_iterator_t :=
  match it.kind with
  | .eid =>
      if no_of_edges g ≤ it.pos then .error .IGRAPH_EINVAL
      else .ok ⟨it.kind, it.pos + 1⟩
  | _ => .error .IGRAPH_EINVAL

/-- Modelled from the spec: `igraph_prev_eid`. -/
def igraph_prev_eid (_g : igraph_t) (it : igraph_iterator_t) :
    Except igraph_error_t igraph_iterator_t :=
  match it.kind with
  | .eid =>
      if it.pos = 0 then .error .IGRAPH_EINVAL
      else .ok ⟨it.kind, it.pos - 1⟩
  | _ => .error .IGRAPH_EINVAL

/-- Modelled from the spec: `igraph_reset_eid`. -/
def igraph_reset_eid (_g : igraph_t) (it : igraph_iterator_t) :
    igraph_iterator_t := ⟨it.kind, 0⟩

/-- Modelled from the spec: `igraph_get_edge_eid` — the canonical edge id
at the current position (the eid iterator walks edges in id order). -/
def igraph_get_edge_eid (_g : igraph_t) (it : igraph_iterator_t) : Nat :=
  match it.kind with
  | .eid => it.pos
  | _ => 0

/-- Modelled from the spec: `igraph_get_vertex_from_eid`. -/
def igraph_get_vertex_from_eid (g : igraph_t) (it : igraph_iterator_t) : Nat :=
  match it.kind with
  | .eid => fromAt g it.pos
  | _ => 0

/-- Modelled from the spec: `igraph_get_vertex_to_eid`. -/
def igraph_get_vertex_to_eid (g : igraph_t) (it : igraph_iterator_t) : Nat :=
  match it.kind with
  | .eid => toAt g it.pos
  | _ => 0

/-- Modelled from the spec: `igraph_end_efromorder`. -/
def igraph_end_efromorder (g : igraph_t) (it : igraph_iterator_t) : Bool :=
  match it.kind with
  | .efromorder => decide (no_of_edges g ≤ it.pos)
  | _ => true

/-- Modelled from the spec: `igraph_next_efromorder`. -/
def igraph_next_efromorder (g : igraph_t) (it : igraph_iterator_t) :
    Except igraph_error_t igraph_iterator_t :=
  match it.kind with
  | .efromorder =>
      if no_of_edges g ≤ it.pos then .error .IGRAPH_EINVAL
      else .ok ⟨it.kind, it.pos + 1⟩
  | _ => .error .IGRAPH_EINVAL

/-- Modelled from the spec: `igraph_prev_efromorder`. -/
def igraph_prev_efromorder (_g : igraph_t) (it : igraph_iterator_t) :
    Except igraph_error_t igraph_iterator_t :=
  match it.kind with
  | .efromorder =>
      if it.pos = 0 then .error .IGRAPH_EINVAL
      else .ok ⟨it.kind, it.pos - 1⟩
  | _ => .error .IGRAPH_EINVAL

/-- Modelled from the spec: `igraph_reset_efromorder`. -/
def igraph_reset_efromorder (_g : igraph_t) (it : igraph_iterator_t) :
    igraph_iterator_t := ⟨it.kind, 0⟩

/-- Modelled from the spec: `igraph_get_edge_efromorder` — the canonical
edge id at the current position of the from-ordered edge walk. -/
def igraph_get_edge_efromorder (g : igraph_t) (it : igraph_iterator_t) : Nat :=
  match it.kind with
  | .efromorder => (oi g).getD it.pos 0
  | _ => 0

/-- Modelled from the spec: `igraph_get_vertex_from_efromorder`. -/
def igraph_get_vertex_from_efromorder (g : igraph_t)
    (it : igraph_iterator_t) : Nat :=
  match it.kind with
  | .efromorder => fromAt g ((oi g).getD it.pos 0)
  | _ => 0

/-- Modelled from the spec: `igraph_get_vertex_to_efromorder`. -/
def igraph_get_vertex_to_efromorder (g : igraph_t)
    (it : igraph_iterator_t) : Nat :=
  match it.kind with
  | .efromorder => toAt g ((oi g).getD it.pos 0)
  | _ => 0

/-- Modelled from the spec: `igraph_end_eneis`. -/
def igraph_end_eneis (g : igraph_t) (it : igraph_iterator_t) : Bool :=
  match it.kind with
  | .eneis v mode => decide ((eneisRange g v mode).length ≤ it.pos)
  | _ => true

/-- Modelled from the spec: `igraph_next_eneis`. -/
def igraph_next_eneis (g : igraph_t) (it : igraph_iterator_t) :
    Except igraph_error_t igraph_iterator_t :=
  match it.kind with
  | .eneis v mode =>
      if (eneisRange g v mode).length ≤ it.pos then .error .IGRAPH_EINVAL
      else .ok ⟨it.kind, it.pos + 1⟩
  | _ => .error .IGRAPH_EINVAL

/-- Modelled from the spec: `igraph_prev_eneis`. -/
def igraph_prev_eneis (_g : igraph_t) (it : igraph_iterator_t) :
    Except igraph_error_t igraph_iterator_t :=
  match it.kind with
  | .eneis _ _ =>
      if it.pos = 0 then .error .IGRAPH_EINVAL
      else .ok ⟨it.kind, it.pos - 1⟩
  | _ => .error .IGRAPH_EINVAL

/-- Modelled from the spec: `igraph_reset_eneis`. -/
def igraph_reset_eneis (_g : igraph_t) (it : igraph_iterator_t) :
    igraph_iterator_t := ⟨it.kind, 0⟩

/-- Modelled from the spec: `igraph_get_edge_eneis`. -/
def igraph_get_edge_eneis (g : igraph_t) (it : igraph_iterator_t) : Nat :=
  match it.kind with
  | .eneis v mode => (eneisRange g v mode).getD it.pos 0
  | _ => 0

/-- Modelled from the spec: `igraph_get_vertex_from_eneis`. -/
def igraph_get_vertex_from_eneis (g : igraph_t)
    (it : igraph_iterator_t) : Nat :=
  match it.kind with
  | .eneis v mode => fromAt g ((eneisRange g v mode).getD it.pos 0)
  | _ => 0

/-- Modelled from the spec: `igraph_get_vertex_to_eneis`. -/
def igraph_get_vertex_to_eneis (g : igraph_t)
    (it : igraph_iterator_t) : Nat :=
  match it.kind with
  | .eneis v mode => toAt g ((eneisRange g v mode).getD it.pos 0)
  | _ => 0

/-- Modelled from the spec: `igraph_get_vertex_nei_eneis` — the far
endpoint of the current incident edge: the `to` column while walking the
`OUT` slice, the `from` column while walking the `IN` slice (spec
section 4.2). -/
def igraph_get_vertex_nei_eneis (g : igraph_t)
    (it : igraph_iterator_t) : Nat :=
  match it.kind with
  | .eneis v mode =>
      match mode with
      | .IGRAPH_OUT => toAt g ((outRange g v).getD it.pos 0)
      | .IGRAPH_IN => fromAt g ((inRange g v).getD it.pos 0)
      | .IGRAPH_ALL =>
          if it.pos < (outRange g v).length then
            toAt g ((outRange g v).getD it.pos 0)
          else fromAt g ((inRange g v).getD (it.pos - (outRange g v).length) 0)
  | _ => 0

/-- Modelled from the spec: generic `igraph_next` — calls through the
dispatch table installed by the iterator's constructor, modelled as
dispatch on the kind tag. -/
def igraph_next (g : igraph_t) (it : igraph_iterator_t) :
    Except igraph_error_t igraph_iterator_t :=
  match it.kind with
  | .vid => igraph_next_vid g it
  | .vneis _ _ => igraph_next_vneis g it
  | .eid => igraph_next_eid g it
  | .efromorder => igraph_next_efromorder g it
  | .eneis _ _ => igraph_next_eneis g it

/-- Modelled from the spec: generic `igraph_prev`.  The vneis kind
installs no prev operation (igraph.h declares none); calling it is
modelled as an error. -/
def igraph_prev (g : igraph_t) (it : igraph_iterator_t) :
    Except igraph_error_t igraph_iterator_t :=
  match it.kind with
  | .vid => igraph_prev_vid g it
  | .vneis _ _ => .error .IGRAPH_EINVAL
  | .eid => igraph_prev_eid g it
  | .efromorder => igraph_prev_efromorder g it
  | .eneis _ _ => igraph_prev_eneis g it

/-- Modelled from the spec: generic `igraph_end`. -/
def igraph_end (g : igraph_t) (it : igraph_iterator_t) : Bool :=
  match it.kind with
  | .vid => igraph_end_vid g it
  | .vneis _ _ => igraph_end_vneis g it
  | .eid => igraph_end_eid g it
  | .efromorder => igraph_end_efromorder g it
  | .eneis _ _ => igraph_end_eneis g it

/-- Modelled from the spec: generic `igraph_reset`. -/
def igraph_reset (g : igraph_t) (it : igraph_iterator_t) :
    igraph_iterator_t :=
  match it.kind with
  | .vid => igraph_reset_vid g it
  | .vneis _ _ => igraph_reset_vneis g it
  | .eid => igraph_reset_eid g it
  | .efromorder => igraph_reset_efromorder g it
  | .eneis _ _ => igraph_reset_eneis g it

/-- Modelled from the spec: generic `igraph_get_vertex` (vertex-kind
iterators only). -/
def igraph_get_vertex (g : igraph_t) (it : igraph_iterator_t) : Nat :=
  match it.kind with
  | .vid => igraph_get_vertex_vid g it
  | .vneis _ _ => igraph_get_vertex_vneis g it
  | _ => 0

/-- Modelled from the spec: generic `igraph_get_vertex_from` (edge-kind
iterators only). -/
def igraph_get_vertex_from (g : igraph_t) (it : igraph_iterator_t) : Nat :=
  match it.kind with
  | .eid => igraph_get_vertex_from_eid g it
  | .efromorder => igraph_get_vertex_from_efromorder g it
  | .eneis _ _ => igraph_get_vertex_from_eneis g it
  | _ => 0

/-- Modelled from the spec: generic `igraph_get_vertex_to` (edge-kind
iterators only). -/
def igraph_get_vertex_to (g : igraph_t) (it : igraph_iterator_t) : Nat :=
  match it.kind with
  | .eid => igraph_get_vertex_to_eid g it
  | .efromorder => igraph_get_vertex_to_efromorder g it
  | .eneis _ _ => igraph_get_vertex_to_eneis g it
  | _ => 0

/-- Modelled from the spec: generic `igraph_get_edge` (edge-kind iterators
only). -/
def igraph_get_edge (g : igraph_t) (it : igraph_iterator_t) : Nat :=
  match it.kind with
  | .eid => igraph_get_edge_eid g it
  | .efromorder => igraph_get_edge_efromorder g it
  | .eneis _ _ => igraph_get_edge_eneis g it
  | _ => 0

/-- Modelled from the spec: generic `igraph_get_vertex_nei` (only the
eneis kind installs it). -/
def igraph_get_vertex_nei (g : igraph_t) (it : igraph_iterator_t) : Nat :=
  match it.kind with
  | .eneis _ _ => igraph_get_vertex_nei_eneis g it
  | _ => 0

/-- The iterator state observable after a `next` call: the advanced
iterator on success, the untouched iterator on an out-of-bounds failure. -/
def nextRun (g : igraph_t) (it : igraph_iterator_t) : igraph_iterator_t :=
  match igraph_next g it with
  | .ok it' => it'
  | .error _ => it

/-- Adjacency test: `v` occurs in the neighbor list of `u`. -/
def adjb (g : igraph_t) (mode : igraph_neimode_t) (u v : Nat) : Bool :=
  (igraph_neighbors g u mode).contains v

/-- There is a walk of exactly `k` edges from `u` to `v` respecting the
direction mode. -/
def walkN (g : igraph_t) (mode : igraph_neimode_t) : Nat → Nat → Nat → Prop
  | 0, u, v => u = v
  | k + 1, u, v => ∃ w, adjb g mode u w = true ∧ walkN g mode k w v

/-- One round of breadth-first search: the vertices reached so far plus
all their neighbors, deduplicated. -/
def bfsStep (g : igraph_t) (mode : igraph_neimode_t) (p : List Nat) :
    List Nat :=
  (p ++ p.flatMap (fun u => igraph_neighbors g u mode)).dedup

/-- The set of vertices within `k` BFS rounds of the source set. -/
def bfsLevels (g : igraph_t) (mode : igraph_neimode_t) (sources : List Nat) :
    Nat → List Nat
  | 0 => sources.dedup
  | k + 1 => bfsStep g mode (bfsLevels g mode sources k)

/-- The first index `i ≤ i + fuel - 1` satisfying `p`, if any. -/
def firstHit (p : Nat → Bool) : Nat → Nat → Option Nat
  | 0, _ => none
  | fuel + 1, i => if p i then some i else firstHit p fuel (i + 1)

/-- Modelled from the spec: the distance computation behind
`igraph_shortest_paths` (declared in igraph.h, body missing): multi-source
unweighted BFS; the distance of a vertex is the first round in which it is
reached (first-visit wins), `none` is the unreached sentinel
(spec section 4.3). -/
def bfsDist (g : igraph_t) (mode : igraph_neimode_t) (sources : List Nat)
    (v : Nat) : Option Nat :=
  firstHit (fun k => (bfsLevels g mode sources k).contains v) (g.n + 1) 0

/-- Modelled from the spec: `igraph_shortest_paths` (declared in igraph.h,
body missing): one row of BFS distances per source vertex. -/
def igraph_shortest_paths (g : igraph_t) (froms : List Nat)
    (mode : igraph_neimode_t) : List (List (Option Nat)) :=
  froms.map (fun s => (List.range g.n).map (fun v => bfsDist g mode [s] v))

/-- An edge crosses the visited frontier when exactly one endpoint is
visited. -/
def crossing (g : igraph_t) (visited : List Nat) (k : Nat) : Bool :=
  visited.contains (fromAt g k) != visited.contains (toAt g k)

/-- The minimum-weight candidate edge, ties broken by the lowest edge id
(the candidate list is scanned in increasing id order and a later
candidate wins only with strictly smaller weight). -/
def pickMin (w : List Int) (cands : List Nat) : Option Nat :=
  cands.foldl (fun best k =>
    match best with
    | none => some k
    | some b => if w.getD k 0 < w.getD b 0 then some k else some b) none

/-- One step of Prim's algorithm on the state (visited vertices, selected
edge ids): select the minimum-weight crossing edge if one exists,
otherwise jump to the lowest-id unvisited vertex, starting a new tree of
the spanning forest. -/
def primStep (g : igraph_t) (w : List Int)
    (st : List Nat × List Nat) : List Nat × List Nat :=
  match pickMin w ((List.range (no_of_edges g)).filter (crossing g st.1)) with
  | some k =>
      ((if st.1.contains (fromAt g k) then toAt g k else fromAt g k) :: st.1,
        st.2 ++ [k])
  | none =>
      match (List.range g.n).find? (fun v => !st.1.contains v) with
      | some v => (v :: st.1, st.2)
      | none => st

/-- Iterates `primStep`. -/
def primGo (g : igraph_t) (w : List Int) :
    Nat → List Nat × List Nat → List Nat × List Nat
  | 0, st => st
  | fuel + 1, st => primGo g w fuel (primStep g w st)

/-- Modelled from the spec: `igraph_minimum_spanning_tree_prim` (declared
in igraph.h, body missing): grows a tree from the start vertex by always
taking the minimum-weight frontier-crossing edge (ties broken by lowest
edge id); on disconnected input it restarts from an unvisited vertex, so a
spanning forest is returned rather than an error (spec section 4.3).
Returns the selected canonical edge ids. -/
def igraph_minimum_spanning_tree_prim (g : igraph_t) (w : List Int)
    (start : Nat) : List Nat :=
  (primGo g w (g.n - 1) ([start], [])).2

/-- The total weight of a selected edge set. -/
def mstWeight (w : List Int) (es : List Nat) : Int :=
  (es.map (fun k => w.getD k 0)).sum

/-- The number of walks of exactly `k` edges from `u` to `v`. -/
def countWalks (g : igraph_t) (mode : igraph_neimode_t) :
    Nat → Nat → Nat → Nat
  | 0, u, v => if u = v then 1 else 0
  | k + 1, u, v =>
      ((igraph_neighbors g u mode).map (fun x => countWalks g mode k x v)).sum

/-- The number of shortest paths from `s` to `t` (walks whose length is the
BFS distance; 0 when `t` is unreachable). -/
def sigmaCount (g : igraph_t) (mode : igraph_neimode_t) (s t : Nat) : Nat :=
  match bfsDist g mode [s] t with
  | some d => countWalks g mode d s t
  | none => 0

/-- The number of shortest paths from `s` to `t` passing through `v`. -/
def sigmaThrough (g : igraph_t) (mode : igraph_neimode_t)
    (v s t : Nat) : Nat :=
  match bfsDist g mode [s] t, bfsDist g mode [s] v, bfsDist g mode [v] t with
  | some dst, some dsv, some dvt =>
      if dsv + dvt = dst then
        countWalks g mode dsv s v * countWalks g mode dvt v t
      else 0
  | _, _, _ => 0

/-- The ordered source/target pairs contributing to the betweenness of
`v`: both endpoints distinct from each other and from `v`. -/
def bcPairs (g : igraph_t) (v : Nat) : List (Nat × Nat) :=
  ((List.range g.n).flatMap (fun s => (List.range g.n).map (fun t => (s, t)))).filter
    (fun p => decide (p.1 ≠ p.2) && decide (p.1 ≠ v) && decide (p.2 ≠ v))

/-- The traversal mode used by the structural algorithms: `OUT` on a
directed graph, `ALL` on an undirected one. -/
def bmode (g : igraph_t) : igraph_neimode_t :=
  if g.directed then .IGRAPH_OUT else .IGRAPH_ALL

/-- The betweenness contribution of the pair `(s, t)` to `v`: the fraction
of shortest `s`-`t` paths passing through `v`. -/
def bcContrib (g : igraph_t) (v : Nat) (p : Nat × Nat) : ℚ :=
  (sigmaThrough g (bmode g) v p.1 p.2 : ℚ) / (sigmaCount g (bmode g) p.1 p.2 : ℚ)

/-- Modelled from the spec: `igraph_betweenness` (declared in igraph.h,
body missing): the Brandes accumulation computes, for each vertex, the sum
over ordered source/target pairs of the fraction of shortest paths through
it, halved for an undirected graph to avoid double counting
(spec section 4.3). -/
def igraph_betweenness (g : igraph_t) (v : Nat) : ℚ :=
  ((bcPairs g v).map (bcContrib g v)).sum / (if g.directed then 1 else 2)

/-- The directed test graph of spec section 8 with edges
`(0,1), (1,2), (0,2)`. -/
def gpaths : igraph_t := ⟨3, true, [0, 1, 0], [1, 2, 2]⟩

/-- The undirected weighted MST test graph of spec section 8:
4 vertices, edges `(0,1), (1,2), (2,3), (0,3)`. -/
def gmst : igraph_t := ⟨4, false, [0, 1, 2, 0], [1, 2, 3, 3]⟩

/-- The weights of `gmst`'s edges: `1, 2, 3, 10`. -/
def wmst : List Int := [1, 2, 3, 10]

/-- The disconnected undirected test graph of spec section 8: vertices
`0..4`, edges `(0,1), (1,2), (3,4)`. -/
def gdisc : igraph_t := ⟨5, false, [0, 1, 3], [1, 2, 4]⟩

/-- Unit weights for `gdisc`. -/
def wdisc : List Int := [1, 1, 1]

/-- The undirected 3-vertex path graph `0 - 1 - 2` of spec section 8. -/
def gpath3 : igraph_t := ⟨3, false, [0, 1], [1, 2]⟩

/-- An undirected graph consisting of a single self-loop at vertex 0. -/
def gloop : igraph_t := ⟨1, false, [0], [0]⟩

instance (g : igraph_t) : IsTotal Nat (outRel g) :=
  ⟨fun a b => by unfold outRel; omega⟩

instance (g : igraph_t) : IsTrans Nat (outRel g) :=
  ⟨fun a b c hab hbc => by unfold outRel at hab hbc ⊢; omega⟩

instance (g : igraph_t) : IsTotal Nat (inRel g) :=
  ⟨fun a b => by unfold inRel; omega⟩

instance (g : igraph_t) : IsTrans Nat (inRel g) :=
  ⟨fun a b c hab hbc => by unfold inRel at hab hbc ⊢; omega⟩

/-- The subgraph of `g` on the same vertex set whose edge list consists of
the given canonical edge ids of `g`, in order: the graph the MST routine
writes into its output `igraph_t`. -/
def mstSub (g : igraph_t) (es : List Nat) : igraph_t :=
  ⟨g.n, g.directed, es.map (fromAt g), es.map (toAt g)⟩

/-- Two vertices are connected (ignoring edge direction) when some walk
over `ALL`-mode adjacency joins them. -/
def wconn (h : igraph_t) (u v : Nat) : Prop :=
  ∃ j, walkN h .IGRAPH_ALL j u v

/-- The invariant of a running Prim state (visited vertices, selected edge
ids): visited vertices are valid and distinct; selected edges are valid,
distinct, and have both endpoints visited; the selection connects every
`g`-connected pair of visited vertices; and every selected edge is a
bridge of the selection (its removal disconnects its endpoints), which is
the forest property. -/
def PrimInv (g : igraph_t) (st : List Nat × List Nat) : Prop :=
  (∀ v ∈ st.1, v < g.n) ∧
  st.1.Nodup ∧
  (∀ k ∈ st.2, k < no_of_edges g) ∧
  st.2.Nodup ∧
  (∀ k ∈ st.2, fromAt g k ∈ st.1 ∧ toAt g k ∈ st.1) ∧
  (∀ u ∈ st.1, ∀ v ∈ st.1, wconn g u v → wconn (mstSub g st.2) u v) ∧
  (∀ k ∈ st.2, ¬ wconn (mstSub g (st.2.erase k)) (fromAt g k) (toAt g k))

theorem countP_or_disjoint {α : Type} (p q : α → Bool) :
    ∀ l : List α, (∀ x ∈ l, ¬(p x = true ∧ q x = true)) →
      l.countP (fun x => p x || q x) = l.countP p + l.countP q := by
  intro l
  induction l with
  | nil => simp
  | cons a t ih =>
      intro h
      have ha := h a (List.mem_cons_self a t)
      have ih' := ih (fun x hx => h x (List.mem_cons_of_mem a hx))
      simp only [List.countP_cons, ih']
      cases hp : p a <;> cases hq : q a <;> simp [hp, hq] at ha ⊢ <;> omega

theorem mem_keepAux {α : Type} (p : Nat → Bool) :
    ∀ (i : Nat) (l : List α) (a : α), a ∈ keepAux p i l → a ∈ l := by
  intro i l
  induction l generalizing i with
  | nil => intro a h; simp [keepAux] at h
  | cons x t ih =>
      intro a h
      rw [keepAux] at h
      by_cases hp : p i
      · simp [hp] at h
        rcases h with h | h
        · exact h ▸ List.mem_cons_self x t
        · exact List.mem_cons_of_mem x (ih (i + 1) a h)
      · simp [hp] at h
        exact List.mem_cons_of_mem x (ih (i + 1) a h)

theorem pairsOf_length : ∀ es : List Int, (pairsOf es).length = es.length / 2
  | [] => by simp [pairsOf]
  | [a] => by simp [pairsOf]
  | a :: b :: rest => by
      rw [pairsOf]
      simp only [List.length_cons, pairsOf_length rest]
      omega

theorem mem_pairsOf : ∀ (es : List Int) (p : Nat × Nat), p ∈ pairsOf es →
    (∃ x ∈ es, p.1 = x.toNat) ∧ (∃ y ∈ es, p.2 = y.toNat)
  | [], p => by simp [pairsOf]
  | [a], p => by simp [pairsOf]
  | a :: b :: rest, p => by
      intro h
      rw [pairsOf] at h
      rcases List.mem_cons.mp h with h | h
      · subst h
        exact ⟨⟨a, by simp, rfl⟩, ⟨b, by simp, rfl⟩⟩
      · rcases mem_pairsOf rest p h with ⟨⟨x, hx, h1⟩, ⟨y, hy, h2⟩⟩
        exact ⟨⟨x, by simp [hx], h1⟩, ⟨y, by simp [hy], h2⟩⟩

theorem firstHit_eq_none (p : Nat → Bool) :
    ∀ (fuel i : Nat), firstHit p fuel i = none ↔
      ∀ j, i ≤ j → j < i + fuel → p j = false
  | 0, i => by
      constructor
      · intro _ j h1 h2; omega
      · intro _; rfl
  | fuel + 1, i => by
      rw [firstHit]
      by_cases hp : p i
      · simp only [hp, if_true]
        constructor
        · intro h; exact absurd h (by simp)
        · intro h
          have h0 := h i (Nat.le_refl i) (by omega)
          rw [hp] at h0
          exact absurd h0 (by simp)
      · simp only [hp, if_false, Bool.false_eq_true]
        rw [firstHit_eq_none p fuel (i + 1)]
        constructor
        · intro h j h1 h2
          rcases Nat.eq_or_lt_of_le h1 with h1 | h1
          · subst h1; exact Bool.eq_false_iff.mpr hp
          · exact h j h1 (by omega)
        · intro h j h1 h2
          exact h j (by omega) (by omega)

theorem firstHit_eq_some (p : Nat → Bool) :
    ∀ (fuel i d : Nat), firstHit p fuel i = some d ↔
      (i ≤ d ∧ d < i + fuel ∧ p d = true ∧ ∀ j, i ≤ j → j < d → p j = false)
  | 0, i, d => by
      constructor
      · intro h; exact absurd h (by simp [firstHit])
      · rintro ⟨h1, h2, -⟩; omega
  | fuel + 1, i, d => by
      rw [firstHit]
      by_cases hp : p i
      · simp only [hp, if_true, Option.some.injEq]
        constructor
        · rintro rfl
          exact ⟨Nat.le_refl i, by omega, hp, fun j h1 h2 => by omega⟩
        · rintro ⟨h1, -, -, h4⟩
          rcases Nat.eq_or_lt_of_le h1 with h1 | h1
          · exact h1
          · have h0 := h4 i (Nat.le_refl i) h1
            rw [hp] at h0
            exact absurd h0 (by simp)
      · simp only [hp, if_false, Bool.false_eq_true]
        rw [firstHit_eq_some p fuel (i + 1) d]
        constructor
        · rintro ⟨h1, h2, h3, h4⟩
          refine ⟨by omega, by omega, h3, fun j hj1 hj2 => ?_⟩
          rcases Nat.eq_or_lt_of_le hj1 with hj1 | hj1
          · subst hj1; exact Bool.eq_false_iff.mpr hp
          · exact h4 j hj1 hj2
        · rintro ⟨h1, h2, h3, h4⟩
          have hd : i ≠ d := by
            rintro rfl; rw [h3] at hp; exact hp rfl
          exact ⟨by omega, by omega, h3, fun j hj1 hj2 => h4 j (by omega) hj2⟩

theorem sorted_all_gt_filter {α : Type} (f : α → Nat) (v : Nat)
    (l : List α) (hge : ∀ y ∈ l, v < f y) :
    l.filter (fun k => decide (f k = v)) = [] := by
  rw [List.filter_eq_nil_iff]
  intro a ha
  have h0 := hge a ha
  simp only [decide_eq_true_eq]
  omega

theorem sorted_take_countP {α : Type} (f : α → Nat) (v : Nat) :
    ∀ (l : List α), l.Pairwise (fun a b => f a ≤ f b) →
    (∀ y ∈ l, v ≤ f y) →
    l.take (l.countP (fun k => decide (f k < v + 1))) =
      l.filter (fun k => decide (f k = v)) := by
  intro l
  induction l with
  | nil => simp
  | cons x t ih =>
      intro hs hge
      have hx := hge x (List.mem_cons_self x t)
      have hhead := (List.pairwise_cons.mp hs).1
      have htail := (List.pairwise_cons.mp hs).2
      rcases Nat.lt_or_ge v (f x) with hfx | hfx
      · have ht : ∀ y ∈ t, v < f y := by
          intro y hy
          have h0 := hhead y hy
          omega
        rw [List.countP_cons_of_neg _ _
          (by simp only [decide_eq_true_eq]; omega)]
        have hz : t.countP (fun k => decide (f k < v + 1)) = 0 := by
          rw [List.countP_eq_zero]
          intro a ha
          have h0 := ht a ha
          simp only [decide_eq_true_eq]
          omega
        rw [hz]
        rw [List.filter_cons_of_neg (by simp only [decide_eq_true_eq]; omega)]
        rw [sorted_all_gt_filter f v t ht]
        simp
      · have hfx' : f x = v := by omega
        rw [List.countP_cons_of_pos _ _
          (by simp only [decide_eq_true_eq]; omega)]
        rw [List.filter_cons_of_pos (by simp only [decide_eq_true_eq]; omega)]
        rw [List.take_succ_cons]
        have ht2 : ∀ y ∈ t, v ≤ f y := by
          intro y hy
          have h0 := hhead y hy
          omega
        rw [ih htail ht2]

theorem sorted_filter_slice {α : Type} (f : α → Nat) (v : Nat) :
    ∀ (l : List α), l.Pairwise (fun a b => f a ≤ f b) →
    (l.drop (l.countP (fun k => decide (f k < v)))).take
        (l.countP (fun k => decide (f k < v + 1)) -
          l.countP (fun k => decide (f k < v))) =
      l.filter (fun k => decide (f k = v)) := by
  intro l
  induction l with
  | nil => simp
  | cons x t ih =>
      intro hs
      have hhead := (List.pairwise_cons.mp hs).1
      have htail := (List.pairwise_cons.mp hs).2
      rcases Nat.lt_trichotomy (f x) v with hfx | hfx | hfx
      · rw [List.countP_cons_of_pos _ _
            (by simp only [decide_eq_true_eq]; omega),
            List.countP_cons_of_pos _ _
            (by simp only [decide_eq_true_eq]; omega)]
        rw [List.filter_cons_of_neg (by simp only [decide_eq_true_eq]; omega)]
        have harith : ∀ a b : Nat, (a + 1) - (b + 1) = a - b := fun a b => by
          omega
        rw [harith, List.drop_succ_cons]
        exact ih htail
      · have hge : ∀ y ∈ x :: t, v ≤ f y := by
          intro y hy
          rcases List.mem_cons.mp hy with rfl | hy
          · omega
          · have h0 := hhead y hy; omega
        have h0 : (x :: t).countP (fun k => decide (f k < v)) = 0 := by
          rw [List.countP_eq_zero]
          intro a ha
          have h1 := hge a ha
          simp only [decide_eq_true_eq]
          omega
        rw [h0, List.drop_zero, Nat.sub_zero]
        exact sorted_take_countP f v (x :: t) hs hge
      · have hgt : ∀ y ∈ x :: t, v < f y := by
          intro y hy
          rcases List.mem_cons.mp hy with rfl | hy
          · omega
          · have h0 := hhead y hy; omega
        have h0 : (x :: t).countP (fun k => decide (f k < v)) = 0 := by
          rw [List.countP_eq_zero]
          intro a ha
          have h1 := hgt a ha
          simp only [decide_eq_true_eq]
          omega
        have h1 : (x :: t).countP (fun k => decide (f k < v + 1)) = 0 := by
          rw [List.countP_eq_zero]
          intro a ha
          have h2 := hgt a ha
          simp only [decide_eq_true_eq]
          omega
        rw [h0, h1, Nat.sub_zero, List.drop_zero, List.take_zero]
        exact (sorted_all_gt_filter f v (x :: t) hgt).symm


theorem oi_perm (g : igraph_t) : (oi g).Perm (List.range (no_of_edges g)) :=
  List.perm_insertionSort (outRel g) (List.range (no_of_edges g))

theorem ii_perm (g : igraph_t) : (ii g).Perm (List.range (no_of_edges g)) :=
  List.perm_insertionSort (inRel g) (List.range (no_of_edges g))

theorem oi_sorted (g : igraph_t) : (oi g).Pairwise (outRel g) :=
  List.sorted_insertionSort (outRel g) (List.range (no_of_edges g))

theorem ii_sorted (g : igraph_t) : (ii g).Pairwise (inRel g) :=
  List.sorted_insertionSort (inRel g) (List.range (no_of_edges g))

theorem oi_from_mono (g : igraph_t) :
    (oi g).Pairwise (fun a b => fromAt g a ≤ fromAt g b) :=
  (oi_sorted g).imp (fun h => by unfold outRel at h; omega)

theorem ii_to_mono (g : igraph_t) :
    (ii g).Pairwise (fun a b => toAt g a ≤ toAt g b) :=
  (ii_sorted g).imp (fun h => by unfold inRel at h; omega)

theorem mem_oi (g : igraph_t) (k : Nat) :
    k ∈ oi g ↔ k < no_of_edges g :=
  (oi_perm g).mem_iff.trans List.mem_range

theorem mem_ii (g : igraph_t) (k : Nat) :
    k ∈ ii g ↔ k < no_of_edges g :=
  (ii_perm g).mem_iff.trans List.mem_range

theorem osAt_eq_countP_oi (g : igraph_t) (v : Nat) :
    osAt g v = (oi g).countP (fun k => decide (fromAt g k < v)) :=
  ((oi_perm g).countP_eq _).symm

theorem isAt_eq_countP_ii (g : igraph_t) (v : Nat) :
    isAt g v = (ii g).countP (fun k => decide (toAt g k < v)) :=
  ((ii_perm g).countP_eq _).symm

theorem outRange_eq_filter (g : igraph_t) (v : Nat) :
    outRange g v = (oi g).filter (fun k => decide (fromAt g k = v)) := by
  unfold outRange
  rw [osAt_eq_countP_oi g v, osAt_eq_countP_oi g (v + 1)]
  exact sorted_filter_slice (fromAt g) v (oi g) (oi_from_mono g)

theorem inRange_eq_filter (g : igraph_t) (v : Nat) :
    inRange g v = (ii g).filter (fun k => decide (toAt g k = v)) := by
  unfold inRange
  rw [isAt_eq_countP_ii g v, isAt_eq_countP_ii g (v + 1)]
  exact sorted_filter_slice (toAt g) v (ii g) (ii_to_mono g)

theorem mem_outRange (g : igraph_t) (v k : Nat) :
    k ∈ outRange g v ↔ k < no_of_edges g ∧ fromAt g k = v := by
  rw [outRange_eq_filter, List.mem_filter, mem_oi]
  simp

theorem mem_inRange (g : igraph_t) (v k : Nat) :
    k ∈ inRange g v ↔ k < no_of_edges g ∧ toAt g k = v := by
  rw [inRange_eq_filter, List.mem_filter, mem_ii]
  simp

theorem mem_neighbors_out (g : igraph_t) (a b : Nat) :
    b ∈ igraph_neighbors g a .IGRAPH_OUT ↔
      ∃ k, k < no_of_edges g ∧ fromAt g k = a ∧ toAt g k = b := by
  show b ∈ (outRange g a).map (toAt g) ↔ _
  rw [List.mem_map]
  constructor
  · rintro ⟨k, hk, rfl⟩
    rcases (mem_outRange g a k).mp hk with ⟨h1, h2⟩
    exact ⟨k, h1, h2, rfl⟩
  · rintro ⟨k, h1, h2, rfl⟩
    exact ⟨k, (mem_outRange g a k).mpr ⟨h1, h2⟩, rfl⟩

theorem mem_neighbors_in (g : igraph_t) (b a : Nat) :
    a ∈ igraph_neighbors g b .IGRAPH_IN ↔
      ∃ k, k < no_of_edges g ∧ fromAt g k = a ∧ toAt g k = b := by
  show a ∈ (inRange g b).map (fromAt g) ↔ _
  rw [List.mem_map]
  constructor
  · rintro ⟨k, hk, rfl⟩
    rcases (mem_inRange g b k).mp hk with ⟨h1, h2⟩
    exact ⟨k, h1, rfl, h2⟩
  · rintro ⟨k, h1, h2, rfl⟩
    exact ⟨k, (mem_inRange g (toAt g k) k).mpr ⟨h1, rfl⟩, h2⟩

theorem beq_eq_decide_eq (a b : Nat) : (a == b) = decide (a = b) := by
  rw [Bool.eq_iff_iff]
  simp

theorem count_neighbors_out (g : igraph_t) (a b : Nat) :
    (igraph_neighbors g a .IGRAPH_OUT).count b =
      (List.range (no_of_edges g)).countP
        (fun k => decide (fromAt g k = a) && decide (toAt g k = b)) := by
  show ((outRange g a).map (toAt g)).count b = _
  rw [List.count_eq_countP, List.countP_map, outRange_eq_filter,
    List.countP_filter, (oi_perm g).countP_eq]
  apply List.countP_congr
  intro k _
  simp [Function.comp, beq_eq_decide_eq, and_comm]

theorem count_neighbors_in (g : igraph_t) (a b : Nat) :
    (igraph_neighbors g a .IGRAPH_IN).count b =
      (List.range (no_of_edges g)).countP
        (fun k => decide (fromAt g k = b) && decide (toAt g k = a)) := by
  show ((inRange g a).map (fromAt g)).count b = _
  rw [List.count_eq_countP, List.countP_map, inRange_eq_filter,
    List.countP_filter, (ii_perm g).countP_eq]
  apply List.countP_congr
  intro k _
  simp [Function.comp, beq_eq_decide_eq]

theorem contains_iff_mem_nat (l : List Nat) (a : Nat) :
    l.contains a = true ↔ a ∈ l := by
  simp

theorem fromAt_lt (g : igraph_t) (h : WellFormed g) (k : Nat)
    (hk : k < no_of_edges g) : fromAt g k < g.n := by
  apply h.2.1
  unfold fromAt
  rw [List.getD_eq_getElem?_getD, List.getElem?_eq_getElem hk]
  simp only [Option.getD_some]
  exact List.getElem_mem hk

theorem toAt_lt (g : igraph_t) (h : WellFormed g) (k : Nat)
    (hk : k < no_of_edges g) : toAt g k < g.n := by
  apply h.2.2
  have hk' : k < g.«to».length := by
    rw [h.1]; exact hk
  unfold toAt
  rw [List.getD_eq_getElem?_getD, List.getElem?_eq_getElem hk']
  simp only [Option.getD_some]
  exact List.getElem_mem hk'

theorem osAt_zero (g : igraph_t) : osAt g 0 = 0 := by
  unfold osAt
  rw [List.countP_eq_zero]
  intro a _
  simp

theorem isAt_zero (g : igraph_t) : isAt g 0 = 0 := by
  unfold isAt
  rw [List.countP_eq_zero]
  intro a _
  simp

theorem osAt_top (g : igraph_t) (h : WellFormed g) :
    osAt g g.n = no_of_edges g := by
  unfold osAt
  rw [List.countP_eq_length.mpr, List.length_range]
  intro k hk
  simp only [decide_eq_true_eq]
  exact fromAt_lt g h k (List.mem_range.mp hk)

theorem isAt_top (g : igraph_t) (h : WellFormed g) :
    isAt g g.n = no_of_edges g := by
  unfold isAt
  rw [List.countP_eq_length.mpr, List.length_range]
  intro k hk
  simp only [decide_eq_true_eq]
  exact toAt_lt g h k (List.mem_range.mp hk)

theorem osAt_mono (g : igraph_t) (u v : Nat) (h : u ≤ v) :
    osAt g u ≤ osAt g v := by
  apply List.countP_mono_left
  intro k _ hk
  simp only [decide_eq_true_eq] at hk ⊢
  omega

theorem isAt_mono (g : igraph_t) (u v : Nat) (h : u ≤ v) :
    isAt g u ≤ isAt g v := by
  apply List.countP_mono_left
  intro k _ hk
  simp only [decide_eq_true_eq] at hk ⊢
  omega

theorem invariant_of_wf (g : igraph_t) (h : WellFormed g) :
    InvariantHolds g :=
  ⟨osAt_zero g, isAt_zero g, osAt_top g h, isAt_top g h,
    osAt_mono g, isAt_mono g, oi_perm g, ii_perm g, oi_sorted g, ii_sorted g⟩

theorem wf_add_vertices (g : igraph_t) (nv : Int) (g' : igraph_t)
    (h : WellFormed g) (heq : igraph_add_vertices g nv = .ok g') :
    WellFormed g' := by
  unfold igraph_add_vertices at heq
  split at heq
  · exact absurd heq (by simp)
  · cases heq
    refine ⟨h.1, fun a ha => ?_, fun b hb => ?_⟩
    · show a < g.n + nv.toNat
      have := h.2.1 a ha; omega
    · show b < g.n + nv.toNat
      have := h.2.2 b hb; omega

theorem wf_add_edges (g : igraph_t) (es : List Int) (g' : igraph_t)
    (h : WellFormed g) (heq : igraph_add_edges g es = .ok g') :
    WellFormed g' := by
  unfold igraph_add_edges at heq
  split at heq
  · exact absurd heq (by simp)
  · split at heq
    · exact absurd heq (by simp)
    · rename_i hlen hval
      cases heq
      have hval' : ∀ x ∈ es, 0 ≤ x ∧ x < (g.n : Int) := by
        intro x hx
        by_contra hc
        exact hval (List.any_eq_true.mpr ⟨x, hx, by
          simp only [Bool.or_eq_true, decide_eq_true_eq]
          omega⟩)
      refine ⟨?_, fun a ha => ?_, fun b hb => ?_⟩
      · show (g.«to» ++ _).length = (g.«from» ++ _).length
        simp only [List.length_append, List.length_map]
        rw [h.1]
      · rcases List.mem_append.mp ha with ha | ha
        · exact h.2.1 a ha
        · rcases List.mem_map.mp ha with ⟨p, hp, rfl⟩
          rcases (mem_pairsOf es p hp).1 with ⟨x, hx, hx'⟩
          have := hval' x hx
          simp only [hx']
          omega
      · rcases List.mem_append.mp hb with hb | hb
        · exact h.2.2 b hb
        · rcases List.mem_map.mp hb with ⟨p, hp, rfl⟩
          rcases (mem_pairsOf es p hp).2 with ⟨y, hy, hy'⟩
          have := hval' y hy
          simp only [hy']
          omega

theorem wf_delete_edges (g : igraph_t) (es : List Int) (g' : igraph_t)
    (h : WellFormed g) (heq : igraph_delete_edges g es = .ok g') :
    WellFormed g' := by
  unfold igraph_delete_edges at heq
  split at heq
  · exact absurd heq (by simp)
  · split at heq
    · exact absurd heq (by simp)
    · cases heq
      refine ⟨?_, fun a ha => ?_, fun b hb => ?_⟩
      · simp only [List.length_map]
      · rcases List.mem_map.mp ha with ⟨p, hp, rfl⟩
        have hz := mem_keepAux _ 0 _ p hp
        exact h.2.1 p.1 (List.of_mem_zip hz).1
      · rcases List.mem_map.mp hb with ⟨p, hp, rfl⟩
        have hz := mem_keepAux _ 0 _ p hp
        exact h.2.2 p.2 (List.of_mem_zip hz).2

theorem countP_le_card_of_nodup (l : List Nat) (hl : l.Nodup)
    (p : Nat → Bool) (s : Finset Nat) (h : ∀ x ∈ l, p x = true → x ∈ s) :
    l.countP p ≤ s.card := by
  rw [List.countP_eq_length_filter,
    ← List.toFinset_card_of_nodup (hl.filter p)]
  apply Finset.card_le_card
  intro x hx
  rw [List.mem_toFinset] at hx
  rcases List.mem_filter.mp hx with ⟨hm, hp⟩
  exact h x hm hp

theorem renum_lt (del : List Nat) (n : Nat) (hnd : del.Nodup)
    (hlt : ∀ d ∈ del, d < n) (v : Nat) (hv : v < n) (hvd : v ∉ del) :
    renum del v < n - del.length := by
  unfold renum
  have hsplit := List.length_eq_countP_add_countP
    (fun d => decide (d < v)) del
  have ht : del.countP (fun d => decide (d < v)) ≤ v := by
    have hcard := countP_le_card_of_nodup del hnd
      (fun d => decide (d < v)) (Finset.range v)
      (fun x _ hp => by
        rw [Finset.mem_range]
        simpa using hp)
    simpa [Finset.card_range] using hcard
  have hu : del.countP (fun d => decide ¬(decide (d < v)) = true) ≤
      n - v - 1 := by
    have hcard := countP_le_card_of_nodup del hnd
      (fun d => decide ¬(decide (d < v)) = true) (Finset.Ioo v n)
      (fun x hx hp => by
        rw [Finset.mem_Ioo]
        simp only [decide_eq_true_eq] at hp
        have h1 := hlt x hx
        have h2 : x ≠ v := fun hc => hvd (hc ▸ hx)
        omega)
    rw [Nat.card_Ioo] at hcard
    exact hcard
  omega

theorem wf_delete_vertices (g : igraph_t) (vs : List Int) (g' : igraph_t)
    (h : WellFormed g) (heq : igraph_delete_vertices g vs = .ok g') :
    WellFormed g' := by
  unfold igraph_delete_vertices at heq
  split at heq
  · exact absurd heq (by simp)
  · split at heq
    · exact absurd heq (by simp)
    · rename_i hval hnd
      rw [not_not] at hnd
      cases heq
      have hval' : ∀ x ∈ vs, 0 ≤ x ∧ x < (g.n : Int) := by
        intro x hx
        by_contra hc
        exact hval (List.any_eq_true.mpr ⟨x, hx, by
          simp only [Bool.or_eq_true, decide_eq_true_eq]
          omega⟩)
      have hdelnd : (vs.map Int.toNat).Nodup := by
        apply hnd.map_on
        intro x hx y hy hxy
        have h1 := hval' x hx
        have h2 := hval' y hy
        omega
      have hdellt : ∀ d ∈ vs.map Int.toNat, d < g.n := by
        intro d hd
        rcases List.mem_map.mp hd with ⟨x, hx, rfl⟩
        have := hval' x hx
        omega
      refine ⟨?_, fun a ha => ?_, fun b hb => ?_⟩
      · simp only [List.length_map]
      · rcases List.mem_map.mp ha with ⟨p, hp, rfl⟩
        rcases List.mem_filter.mp hp with ⟨hz, hcond⟩
        have h1 := h.2.1 p.1 (List.of_mem_zip hz).1
        have h2 : p.1 ∉ vs.map Int.toNat := by
          intro hc
          simp only [Bool.and_eq_true, Bool.not_eq_true'] at hcond
          rw [← Bool.not_eq_true] at hcond
          exact (by simpa using hcond.1 : p.1 ∉ vs.map Int.toNat) hc
        exact renum_lt _ g.n hdelnd hdellt p.1 h1 h2
      · rcases List.mem_map.mp hb with ⟨p, hp, rfl⟩
        rcases List.mem_filter.mp hp with ⟨hz, hcond⟩
        have h1 := h.2.2 p.2 (List.of_mem_zip hz).2
        have h2 : p.2 ∉ vs.map Int.toNat := by
          intro hc
          simp only [Bool.and_eq_true, Bool.not_eq_true'] at hcond
          rw [← Bool.not_eq_true] at hcond
          exact (by simpa using hcond.2 : p.2 ∉ vs.map Int.toNat) hc
        exact renum_lt _ g.n hdelnd hdellt p.2 h1 h2

theorem wf_applyMut (g : igraph_t) (op : MutOp) (g' : igraph_t)
    (h : WellFormed g) (heq : applyMut g op = .ok g') : WellFormed g' := by
  cases op with
  | addVertices nv => exact wf_add_vertices g nv g' h heq
  | addEdges es => exact wf_add_edges g es g' h heq
  | deleteEdges es => exact wf_delete_edges g es g' h heq
  | deleteVertices vs => exact wf_delete_vertices g vs g' h heq

theorem wf_runMuts : ∀ (ops : List MutOp) (g g' : igraph_t),
    WellFormed g → runMuts g ops = .ok g' → WellFormed g'
  | [], g, g' => by
      intro h heq
      rw [runMuts] at heq
      cases heq
      exact h
  | op :: rest, g, g' => by
      intro h heq
      rw [runMuts] at heq
      rcases hstep : applyMut g op with e | g1
      · rw [hstep] at heq
        exact absurd heq (by simp)
      · rw [hstep] at heq
        exact wf_runMuts rest g1 g' (wf_applyMut g op g1 h hstep) heq

/-- C1: mutation atomicity.  For every mutation operation and every input,
failing with an invalid-argument error is equivalent to the declarative
invalid-input condition (out-of-range id, negative count, odd flattened
pair list, duplicate id), and on failure the observable graph state equals
the state before the call: no partially applied mutation exists.
spec-modelled: the mutation bodies are absent from src (only igraph.h). -/
theorem c1_mutation_atomicity (g : igraph_t) (op : MutOp) :
    ((∃ e, applyMut g op = .error e) ↔ MutInvalid g op) ∧
    (∀ e, applyMut g op = .error e → mutRun g op = g) := by
  constructor
  · cases op with
    | addVertices nv =>
        simp only [applyMut, igraph_add_vertices, MutInvalid]
        split <;> rename_i h
        · simp [h]
        · simp [h]
    | addEdges es =>
        simp only [applyMut, igraph_add_edges, MutInvalid]
        split <;> rename_i h1
        · simp [h1]
        · split <;> rename_i h2
          · rw [List.any_eq_true] at h2
            simp only [Bool.or_eq_true, decide_eq_true_eq] at h2
            simp [h1, h2]
          · rw [List.any_eq_true] at h2
            simp only [not_exists, not_and, Bool.or_eq_true,
              decide_eq_true_eq, not_or] at h2
            constructor
            · intro he
              exact absurd he.choose_spec (by simp)
            · rintro (hc | ⟨x, hx, hc⟩)
              · exact absurd hc h1
              · rcases h2 x hx with ⟨hn1, hn2⟩
                rcases hc with hc | hc
                · exact absurd hc hn1
                · exact absurd hc hn2
    | deleteEdges es =>
        simp only [applyMut, igraph_delete_edges, MutInvalid]
        split <;> rename_i h1
        · rw [List.any_eq_true] at h1
          simp only [Bool.or_eq_true, decide_eq_true_eq] at h1
          simp [h1]
        · rw [List.any_eq_true] at h1
          simp only [not_exists, not_and, Bool.or_eq_true,
            decide_eq_true_eq, not_or] at h1
          split <;> rename_i h2
          · simp [h2]
          · rw [not_not] at h2
            constructor
            · intro he
              exact absurd he.choose_spec (by simp)
            · rintro (⟨x, hx, hc⟩ | hc)
              · rcases h1 x hx with ⟨hn1, hn2⟩
                rcases hc with hc | hc
                · exact absurd hc hn1
                · exact absurd hc hn2
              · exact absurd h2 hc
    | deleteVertices vs =>
        simp only [applyMut, igraph_delete_vertices, MutInvalid]
        split <;> rename_i h1
        · rw [List.any_eq_true] at h1
          simp only [Bool.or_eq_true, decide_eq_true_eq] at h1
          simp [h1]
        · rw [List.any_eq_true] at h1
          simp only [not_exists, not_and, Bool.or_eq_true,
            decide_eq_true_eq, not_or] at h1
          split <;> rename_i h2
          · simp [h2]
          · rw [not_not] at h2
            constructor
            · intro he
              exact absurd he.choose_spec (by simp)
            · rintro (⟨x, hx, hc⟩ | hc)
              · rcases h1 x hx with ⟨hn1, hn2⟩
                rcases hc with hc | hc
                · exact absurd hc hn1
                · exact absurd hc hn2
              · exact absurd h2 hc
  · intro e h
    unfold mutRun
    rw [h]

/-- Witness for C1 at a concrete failing input: deleting edge id 5 from
the 2-edge path graph is invalid and leaves the graph unchanged. -/
theorem c1_mutation_atomicity_witness :
    mutRun gpath3 (MutOp.deleteEdges [5]) = gpath3 :=
  (c1_mutation_atomicity gpath3 (MutOp.deleteEdges [5])).2
    igraph_error_t.IGRAPH_EINVEVECTOR (by rfl)

/-- C2: index invariant preservation.  After every successful sequence of
mutation calls starting from an empty graph (hence after each call of such
a sequence, taking prefixes), the offset vectors are non-decreasing, start
at 0 and end at the edge count, and `oi`/`ii` are permutations of `[0,E)`
sorted lexicographically by `(from, to)` resp. `(to, from)`.
spec-modelled: the mutation bodies are absent from src (only igraph.h). -/
theorem c2_index_invariants (d : Bool) (ops : List MutOp) (g : igraph_t)
    (h : runMuts ⟨0, d, [], []⟩ ops = .ok g) : InvariantHolds g :=
  invariant_of_wf g
    (wf_runMuts ops ⟨0, d, [], []⟩ g ⟨rfl, by simp, by simp⟩ h)

/-- Witness for C2: a concrete sequence exercising all four mutations. -/
theorem c2_index_invariants_witness :
    InvariantHolds ⟨2, true, [0], [1]⟩ :=
  c2_index_invariants true
    [MutOp.addVertices 3, MutOp.addEdges [0, 1, 1, 2, 0, 2],
      MutOp.deleteEdges [2], MutOp.deleteVertices [0]]
    ⟨2, true, [0], [1]⟩ (by rfl)

/-- C3: undirected storage and connectivity query.  In an undirected graph
`areConnected(v1, v2)` holds exactly when some stored edge has endpoints
`(v1, v2)` or `(v2, v1)` (both orientations are consulted), and
`addEdges` stores each logical edge exactly once: the edge count grows by
the number of pairs, with no duplicated reverse entry.
spec-modelled: the query and mutation bodies are absent from src. -/
theorem c3_undirected_connectivity (g : igraph_t) (hu : g.directed = false) :
    (∀ v1 v2, igraph_are_connected g v1 v2 = true ↔
      ∃ k, k < no_of_edges g ∧
        ((fromAt g k = v1 ∧ toAt g k = v2) ∨
          (fromAt g k = v2 ∧ toAt g k = v1))) ∧
    (∀ es g', igraph_add_edges g es = .ok g' →
      no_of_edges g' = no_of_edges g + es.length / 2) := by
  constructor
  · intro v1 v2
    unfold igraph_are_connected
    rw [hu]
    simp only [Bool.not_false, Bool.true_and, Bool.or_eq_true,
      contains_iff_mem_nat]
    rw [mem_neighbors_out, mem_neighbors_in]
    constructor
    · rintro (⟨k, h1, h2, h3⟩ | ⟨k, h1, h2, h3⟩)
      · exact ⟨k, h1, Or.inl ⟨h2, h3⟩⟩
      · exact ⟨k, h1, Or.inr ⟨h2, h3⟩⟩
    · rintro ⟨k, h1, (⟨h2, h3⟩ | ⟨h2, h3⟩)⟩
      · exact Or.inl ⟨k, h1, h2, h3⟩
      · exact Or.inr ⟨k, h1, h2, h3⟩
  · intro es g' heq
    unfold igraph_add_edges at heq
    split at heq
    · exact absurd heq (by simp)
    · split at heq
      · exact absurd heq (by simp)
      · cases heq
        show (g.«from» ++ (pairsOf es).map Prod.fst).length = _
        simp only [List.length_append, List.length_map, pairsOf_length es]
        rfl

/-- Witness for C3: in the undirected path graph `0 - 1 - 2` the query
`areConnected(2, 1)` agrees with the stored-edge characterization. -/
theorem c3_undirected_connectivity_witness :
    igraph_are_connected gpath3 2 1 = true ↔
      ∃ k, k < no_of_edges gpath3 ∧
        ((fromAt gpath3 k = 2 ∧ toAt gpath3 k = 1) ∨
          (fromAt gpath3 k = 1 ∧ toAt gpath3 k = 2)) :=
  (c3_undirected_connectivity gpath3 rfl).1 2 1

/-- Counterexample to C4 as stated: in the undirected graph with the
single self-loop `(0, 0)`, vertex 0 appears twice in its own `ALL` range
(once through `OUT`, once through `IN`), not exactly once per edge. -/
theorem c4_counterexample :
    ¬ (igraph_neighbors gloop 0 .IGRAPH_ALL).count 0 =
        edgesBetween gloop 0 0 := by decide

/-- C4 (amended): for every graph and every stored edge `(a, b)`, `b`
appears in `neighborRange(a, OUT)` and `a` appears in
`neighborRange(b, IN)`; for an undirected graph and distinct vertices
`a ≠ b`, `b` appears in the `ALL` range of `a` exactly once per edge
between them (a self-loop instead appears twice, once per range).
spec-modelled: the neighbor-query body is absent from src. -/
theorem c4_neighbor_ranges (g : igraph_t) :
    (∀ k, k < no_of_edges g →
      toAt g k ∈ igraph_neighbors g (fromAt g k) .IGRAPH_OUT ∧
      fromAt g k ∈ igraph_neighbors g (toAt g k) .IGRAPH_IN) ∧
    (g.directed = false → ∀ a b, a ≠ b →
      (igraph_neighbors g a .IGRAPH_ALL).count b = edgesBetween g a b) ∧
    (g.directed = false → ∀ a,
      (igraph_neighbors g a .IGRAPH_ALL).count a = 2 * edgesBetween g a a) := by
  refine ⟨?_, ?_, ?_⟩
  · intro k hk
    exact ⟨(mem_neighbors_out g (fromAt g k) (toAt g k)).mpr ⟨k, hk, rfl, rfl⟩,
      (mem_neighbors_in g (toAt g k) (fromAt g k)).mpr ⟨k, hk, rfl, rfl⟩⟩
  · intro _ a b hab
    rw [show igraph_neighbors g a .IGRAPH_ALL =
        igraph_neighbors g a .IGRAPH_OUT ++ igraph_neighbors g a .IGRAPH_IN
      from rfl]
    rw [List.count_append, count_neighbors_out, count_neighbors_in]
    unfold edgesBetween
    refine (countP_or_disjoint _ _ _ ?_).symm
    intro k _
    rintro ⟨hc1, hc2⟩
    simp only [Bool.and_eq_true, decide_eq_true_eq] at hc1 hc2
    exact hab (hc1.1.symm.trans hc2.1)
  · intro _ a
    rw [show igraph_neighbors g a .IGRAPH_ALL =
        igraph_neighbors g a .IGRAPH_OUT ++ igraph_neighbors g a .IGRAPH_IN
      from rfl]
    rw [List.count_append, count_neighbors_out, count_neighbors_in]
    have he : edgesBetween g a a = (List.range (no_of_edges g)).countP
        (fun k => decide (fromAt g k = a) && decide (toAt g k = a)) := by
      unfold edgesBetween
      apply List.countP_congr
      intro k _
      simp
    rw [he]
    omega

/-- Witness for C4 (amended): the non-loop count on the undirected path
graph and the twice-per-loop count on the self-loop graph. -/
theorem c4_neighbor_ranges_witness :
    (toAt gpath3 0 ∈ igraph_neighbors gpath3 (fromAt gpath3 0) .IGRAPH_OUT ∧
      fromAt gpath3 0 ∈ igraph_neighbors gpath3 (toAt gpath3 0) .IGRAPH_IN) ∧
    (igraph_neighbors gpath3 0 .IGRAPH_ALL).count 1 = edgesBetween gpath3 0 1 ∧
    (igraph_neighbors gloop 0 .IGRAPH_ALL).count 0 = 2 * edgesBetween gloop 0 0 :=
  ⟨(c4_neighbor_ranges gpath3).1 0 (by decide),
    (c4_neighbor_ranges gpath3).2.1 rfl 0 1 (by decide),
    (c4_neighbor_ranges gloop).2.2 rfl 0⟩

/-- C8: on a directed graph, `ALL`-mode enumeration is the concatenation
of the `OUT` and the `IN` range without deduplication (a reciprocal edge
pair contributes two entries), and hence
`degree(v, ALL) = degree(v, OUT) + degree(v, IN)` for either loop policy.
spec-modelled: the neighbor/degree bodies are absent from src. -/
theorem c8_all_mode_concat (g : igraph_t) (v : Nat) (loops : Bool)
    (_hdir : g.directed = true) :
    igraph_neighbors g v .IGRAPH_ALL =
      igraph_neighbors g v .IGRAPH_OUT ++ igraph_neighbors g v .IGRAPH_IN ∧
    igraph_degree g v .IGRAPH_ALL loops =
      igraph_degree g v .IGRAPH_OUT loops +
        igraph_degree g v .IGRAPH_IN loops := by
  refine ⟨rfl, ?_⟩
  unfold igraph_degree
  cases loops
  · simp only [if_false, Bool.false_eq_true]
    rw [show igraph_neighbors g v .IGRAPH_ALL =
        igraph_neighbors g v .IGRAPH_OUT ++ igraph_neighbors g v .IGRAPH_IN
      from rfl]
    rw [List.filter_append, List.length_append]
  · simp only [if_true]
    rw [show igraph_neighbors g v .IGRAPH_ALL =
        igraph_neighbors g v .IGRAPH_OUT ++ igraph_neighbors g v .IGRAPH_IN
      from rfl]
    rw [List.length_append]

/-- Witness for C8 on the directed triangle graph, which has a reciprocal
pair after adding the reverse edge: here plain `gpaths` at vertex 0. -/
theorem c8_all_mode_concat_witness :
    igraph_neighbors gpaths 0 .IGRAPH_ALL =
      igraph_neighbors gpaths 0 .IGRAPH_OUT ++
        igraph_neighbors gpaths 0 .IGRAPH_IN ∧
    igraph_degree gpaths 0 .IGRAPH_ALL true =
      igraph_degree gpaths 0 .IGRAPH_OUT true +
        igraph_degree gpaths 0 .IGRAPH_IN true :=
  c8_all_mode_concat gpaths 0 true rfl

/-- C9: cursor advance at end.  For every cursor kind, `next()` at the end
position fails with an out-of-bounds error and the observable cursor state
is unchanged; otherwise `next()` advances the position by exactly one.
spec-modelled: the iterator bodies are absent from src (only igraph.h). -/
theorem c9_cursor_next (g : igraph_t) (it : igraph_iterator_t) :
    (igraph_end g it = true →
      igraph_next g it = .error .IGRAPH_EINVAL ∧ nextRun g it = it) ∧
    (igraph_end g it = false →
      igraph_next g it = .ok ⟨it.kind, it.pos + 1⟩) := by
  obtain ⟨k, pos⟩ := it
  cases k with
  | vid =>
      constructor
      · intro h
        simp only [igraph_end, igraph_end_vid, decide_eq_true_eq] at h
        constructor
        · simp [igraph_next, igraph_next_vid, h]
        · simp [nextRun, igraph_next, igraph_next_vid, h]
      · intro h
        simp only [igraph_end, igraph_end_vid, decide_eq_false_iff_not] at h
        simp [igraph_next, igraph_next_vid, h]
  | vneis v mode =>
      constructor
      · intro h
        simp only [igraph_end, igraph_end_vneis, decide_eq_true_eq] at h
        constructor
        · simp [igraph_next, igraph_next_vneis, h]
        · simp [nextRun, igraph_next, igraph_next_vneis, h]
      · intro h
        simp only [igraph_end, igraph_end_vneis, decide_eq_false_iff_not] at h
        simp [igraph_next, igraph_next_vneis, h]
  | eid =>
      constructor
      · intro h
        simp only [igraph_end, igraph_end_eid, decide_eq_true_eq] at h
        constructor
        · simp [igraph_next, igraph_next_eid, h]
        · simp [nextRun, igraph_next, igraph_next_eid, h]
      · intro h
        simp only [igraph_end, igraph_end_eid, decide_eq_false_iff_not] at h
        simp [igraph_next, igraph_next_eid, h]
  | efromorder =>
      constructor
      · intro h
        simp only [igraph_end, igraph_end_efromorder, decide_eq_true_eq] at h
        constructor
        · simp [igraph_next, igraph_next_efromorder, h]
        · simp [nextRun, igraph_next, igraph_next_efromorder, h]
      · intro h
        simp only [igraph_end, igraph_end_efromorder,
          decide_eq_false_iff_not] at h
        simp [igraph_next, igraph_next_efromorder, h]
  | eneis v mode =>
      constructor
      · intro h
        simp only [igraph_end, igraph_end_eneis, decide_eq_true_eq] at h
        constructor
        · simp [igraph_next, igraph_next_eneis, h]
        · simp [nextRun, igraph_next, igraph_next_eneis, h]
      · intro h
        simp only [igraph_end, igraph_end_eneis, decide_eq_false_iff_not] at h
        simp [igraph_next, igraph_next_eneis, h]

/-- Witness for C9: at the end of the vertex walk of the 3-vertex path
graph, `next` errors and the cursor is unchanged; before the end it
advances by one position. -/
theorem c9_cursor_next_witness :
    (igraph_next gpath3 ⟨iter_kind_t.vid, 3⟩ =
        .error igraph_error_t.IGRAPH_EINVAL ∧
      nextRun gpath3 ⟨iter_kind_t.vid, 3⟩ = ⟨iter_kind_t.vid, 3⟩) ∧
    igraph_next gpath3 ⟨iter_kind_t.vid, 0⟩ = .ok ⟨iter_kind_t.vid, 1⟩ :=
  ⟨(c9_cursor_next gpath3 ⟨iter_kind_t.vid, 3⟩).1 (by decide),
    (c9_cursor_next gpath3 ⟨iter_kind_t.vid, 0⟩).2 (by decide)⟩

/-- C10: generic/specific iterator equivalence.  The five constructors
install the kind tag their names promise, and on an iterator of each kind
every generic operation agrees with the corresponding kind-specific
function declared in igraph.h (vneis installs no `prev`, and `vid`/`vneis`
install no edge accessors, so no specific counterpart is asserted there).
spec-modelled: the dispatch-table bodies are absent from src. -/
theorem c10_generic_specific (g : igraph_t) (it : igraph_iterator_t) :
    ((igraph_iterator_vid g).kind = iter_kind_t.vid ∧
      (∀ v mode, (igraph_iterator_vneis g v mode).kind =
        iter_kind_t.vneis v mode) ∧
      (igraph_iterator_eid g).kind = iter_kind_t.eid ∧
      (igraph_iterator_efromorder g).kind = iter_kind_t.efromorder ∧
      (∀ v mode, (igraph_iterator_eneis g v mode).kind =
        iter_kind_t.eneis v mode)) ∧
    (it.kind = iter_kind_t.vid →
      igraph_next g it = igraph_next_vid g it ∧
      igraph_prev g it = igraph_prev_vid g it ∧
      igraph_end g it = igraph_end_vid g it ∧
      igraph_reset g it = igraph_reset_vid g it ∧
      igraph_get_vertex g it = igraph_get_vertex_vid g it) ∧
    (∀ v mode, it.kind = iter_kind_t.vneis v mode →
      igraph_next g it = igraph_next_vneis g it ∧
      igraph_end g it = igraph_end_vneis g it ∧
      igraph_reset g it = igraph_reset_vneis g it ∧
      igraph_get_vertex g it = igraph_get_vertex_vneis g it) ∧
    (it.kind = iter_kind_t.eid →
      igraph_next g it = igraph_next_eid g it ∧
      igraph_prev g it = igraph_prev_eid g it ∧
      igraph_end g it = igraph_end_eid g it ∧
      igraph_reset g it = igraph_reset_eid g it ∧
      igraph_get_vertex_from g it = igraph_get_vertex_from_eid g it ∧
      igraph_get_vertex_to g it = igraph_get_vertex_to_eid g it ∧
      igraph_get_edge g it = igraph_get_edge_eid g it) ∧
    (it.kind = iter_kind_t.efromorder →
      igraph_next g it = igraph_next_efromorder g it ∧
      igraph_prev g it = igraph_prev_efromorder g it ∧
      igraph_end g it = igraph_end_efromorder g it ∧
      igraph_reset g it = igraph_reset_efromorder g it ∧
      igraph_get_vertex_from g it = igraph_get_vertex_from_efromorder g it ∧
      igraph_get_vertex_to g it = igraph_get_vertex_to_efromorder g it ∧
      igraph_get_edge g it = igraph_get_edge_efromorder g it) ∧
    (∀ v mode, it.kind = iter_kind_t.eneis v mode →
      igraph_next g it = igraph_next_eneis g it ∧
      igraph_prev g it = igraph_prev_eneis g it ∧
      igraph_end g it = igraph_end_eneis g it ∧
      igraph_reset g it = igraph_reset_eneis g it ∧
      igraph_get_vertex_from g it = igraph_get_vertex_from_eneis g it ∧
      igraph_get_vertex_to g it = igraph_get_vertex_to_eneis g it ∧
      igraph_get_edge g it = igraph_get_edge_eneis g it ∧
      igraph_get_vertex_nei g it = igraph_get_vertex_nei_eneis g it) := by
  obtain ⟨k, pos⟩ := it
  refine ⟨⟨rfl, fun v mode => rfl, rfl, rfl, fun v mode => rfl⟩,
    fun h => ?_, fun v mode h => ?_, fun h => ?_, fun h => ?_,
    fun v mode h => ?_⟩ <;>
    subst h
  · exact ⟨rfl, rfl, rfl, rfl, rfl⟩
  · exact ⟨rfl, rfl, rfl, rfl⟩
  · exact ⟨rfl, rfl, rfl, rfl, rfl, rfl, rfl⟩
  · exact ⟨rfl, rfl, rfl, rfl, rfl, rfl, rfl⟩
  · exact ⟨rfl, rfl, rfl, rfl, rfl, rfl, rfl, rfl⟩

/-- Witness for C10: the equivalences instantiated on a vid iterator of
the path graph. -/
theorem c10_generic_specific_witness :
    igraph_next gpath3 (igraph_iterator_vid gpath3) =
        igraph_next_vid gpath3 (igraph_iterator_vid gpath3) ∧
      igraph_prev gpath3 (igraph_iterator_vid gpath3) =
        igraph_prev_vid gpath3 (igraph_iterator_vid gpath3) ∧
      igraph_end gpath3 (igraph_iterator_vid gpath3) =
        igraph_end_vid gpath3 (igraph_iterator_vid gpath3) ∧
      igraph_reset gpath3 (igraph_iterator_vid gpath3) =
        igraph_reset_vid gpath3 (igraph_iterator_vid gpath3) ∧
      igraph_get_vertex gpath3 (igraph_iterator_vid gpath3) =
        igraph_get_vertex_vid gpath3 (igraph_iterator_vid gpath3) :=
  (c10_generic_specific gpath3 (igraph_iterator_vid gpath3)).2.1 rfl

theorem walkN_succ_iff (g : igraph_t) (mode : igraph_neimode_t) :
    ∀ (k s v : Nat), walkN g mode (k + 1) s v ↔
      ∃ u, walkN g mode k s u ∧ adjb g mode u v = true
  | 0, s, v => by
      rw [walkN]
      constructor
      · rintro ⟨w, hw, he⟩
        rw [walkN] at he
        exact ⟨s, rfl, he ▸ hw⟩
      · rintro ⟨u, hu, ha⟩
        rw [walkN] at hu
        exact ⟨v, hu ▸ ha, rfl⟩
  | k + 1, s, v => by
      rw [walkN]
      constructor
      · rintro ⟨w, hw, he⟩
        rcases (walkN_succ_iff g mode k w v).mp he with ⟨u, hu, ha⟩
        exact ⟨u, ⟨w, hw, hu⟩, ha⟩
      · rintro ⟨u, hu, ha⟩
        rw [walkN] at hu
        rcases hu with ⟨w, hw, hwu⟩
        exact ⟨w, hw, (walkN_succ_iff g mode k w v).mpr ⟨u, hwu, ha⟩⟩

theorem mem_bfsStep (g : igraph_t) (mode : igraph_neimode_t)
    (p : List Nat) (x : Nat) :
    x ∈ bfsStep g mode p ↔ x ∈ p ∨ ∃ u ∈ p, adjb g mode u x = true := by
  unfold bfsStep
  rw [List.mem_dedup, List.mem_append, List.mem_flatMap]
  constructor
  · rintro (h | ⟨u, hu, hx⟩)
    · exact Or.inl h
    · exact Or.inr ⟨u, hu, (contains_iff_mem_nat _ _).mpr hx⟩
  · rintro (h | ⟨u, hu, hx⟩)
    · exact Or.inl h
    · exact Or.inr ⟨u, hu, (contains_iff_mem_nat _ _).mp hx⟩

theorem mem_bfsLevels (g : igraph_t) (mode : igraph_neimode_t)
    (sources : List Nat) :
    ∀ (k v : Nat), v ∈ bfsLevels g mode sources k ↔
      ∃ j, j ≤ k ∧ ∃ s ∈ sources, walkN g mode j s v
  | 0, v => by
      rw [bfsLevels, List.mem_dedup]
      constructor
      · intro h
        exact ⟨0, Nat.le_refl 0, v, h, rfl⟩
      · rintro ⟨j, hj, s, hs, hw⟩
        interval_cases j
        rw [walkN] at hw
        exact hw ▸ hs
  | k + 1, v => by
      rw [bfsLevels, mem_bfsStep]
      constructor
      · rintro (h | ⟨u, hu, ha⟩)
        · rcases (mem_bfsLevels g mode sources k v).mp h with ⟨j, hj, s, hs, hw⟩
          exact ⟨j, by omega, s, hs, hw⟩
        · rcases (mem_bfsLevels g mode sources k u).mp hu with ⟨j, hj, s, hs, hw⟩
          exact ⟨j + 1, by omega, s, hs,
            (walkN_succ_iff g mode j s v).mpr ⟨u, hw, ha⟩⟩
      · rintro ⟨j, hj, s, hs, hw⟩
        rcases Nat.lt_or_ge j (k + 1) with hj' | hj'
        · exact Or.inl ((mem_bfsLevels g mode sources k v).mpr
            ⟨j, by omega, s, hs, hw⟩)
        · have hjeq : j = k + 1 := by omega
          subst hjeq
          rcases (walkN_succ_iff g mode k s v).mp hw with ⟨u, hu, ha⟩
          exact Or.inr ⟨u, (mem_bfsLevels g mode sources k u).mpr
            ⟨k, Nat.le_refl k, s, hs, hu⟩, ha⟩

theorem bfsLevels_mono (g : igraph_t) (mode : igraph_neimode_t)
    (sources : List Nat) (j k v : Nat) (hjk : j ≤ k)
    (h : v ∈ bfsLevels g mode sources j) : v ∈ bfsLevels g mode sources k := by
  rcases (mem_bfsLevels g mode sources j v).mp h with ⟨i, hi, s, hs, hw⟩
  exact (mem_bfsLevels g mode sources k v).mpr ⟨i, by omega, s, hs, hw⟩

theorem mem_neighbors_lt (g : igraph_t) (h : WellFormed g)
    (u x : Nat) (mode : igraph_neimode_t)
    (hx : x ∈ igraph_neighbors g u mode) : x < g.n := by
  cases mode with
  | IGRAPH_OUT =>
      rcases (mem_neighbors_out g u x).mp hx with ⟨k, hk, -, h2⟩
      exact h2 ▸ toAt_lt g h k hk
  | IGRAPH_IN =>
      rcases (mem_neighbors_in g u x).mp hx with ⟨k, hk, h2, -⟩
      exact h2 ▸ fromAt_lt g h k hk
  | IGRAPH_ALL =>
      rcases List.mem_append.mp hx with hx | hx
      · rcases (mem_neighbors_out g u x).mp hx with ⟨k, hk, -, h2⟩
        exact h2 ▸ toAt_lt g h k hk
      · rcases (mem_neighbors_in g u x).mp hx with ⟨k, hk, h2, -⟩
        exact h2 ▸ fromAt_lt g h k hk

theorem bfsLevels_lt (g : igraph_t) (mode : igraph_neimode_t)
    (sources : List Nat) (hwf : WellFormed g)
    (hs : ∀ s ∈ sources, s < g.n) :
    ∀ (k x : Nat), x ∈ bfsLevels g mode sources k → x < g.n
  | 0, x => by
      rw [bfsLevels, List.mem_dedup]
      exact hs x
  | k + 1, x => by
      rw [bfsLevels, mem_bfsStep]
      rintro (h | ⟨u, hu, ha⟩)
      · exact bfsLevels_lt g mode sources hwf hs k x h
      · exact mem_neighbors_lt g hwf u x mode ((contains_iff_mem_nat _ _).mp ha)

theorem bfsLevels_nodup (g : igraph_t) (mode : igraph_neimode_t)
    (sources : List Nat) : ∀ k, (bfsLevels g mode sources k).Nodup
  | 0 => List.nodup_dedup sources
  | _ + 1 => List.nodup_dedup _

theorem length_le_of_nodup_lt (l : List Nat) (hl : l.Nodup) (n : Nat)
    (h : ∀ x ∈ l, x < n) : l.length ≤ n := by
  rw [← List.toFinset_card_of_nodup hl]
  calc l.toFinset.card ≤ (Finset.range n).card := by
        apply Finset.card_le_card
        intro x hx
        rw [Finset.mem_range]
        exact h x (List.mem_toFinset.mp hx)
    _ = n := Finset.card_range n

theorem length_lt_of_nodup_ssub (l m : List Nat) (hl : l.Nodup)
    (hm : m.Nodup) (hsub : ∀ x ∈ l, x ∈ m) (x : Nat) (hxm : x ∈ m)
    (hxl : x ∉ l) : l.length < m.length := by
  rw [← List.toFinset_card_of_nodup hl, ← List.toFinset_card_of_nodup hm]
  apply Finset.card_lt_card
  constructor
  · intro a ha
    rw [List.mem_toFinset] at ha ⊢
    exact hsub a ha
  · intro hc
    exact hxl (List.mem_toFinset.mp (hc (List.mem_toFinset.mpr hxm)))

theorem bfsLevels_growth (g : igraph_t) (mode : igraph_neimode_t)
    (sources : List Nat) :
    ∀ m, (∀ j, j < m →
        ¬(∀ x, x ∈ bfsLevels g mode sources (j + 1) ↔
            x ∈ bfsLevels g mode sources j)) →
      m ≤ (bfsLevels g mode sources m).length
  | 0, _ => Nat.zero_le _
  | m + 1, h => by
      have ih := bfsLevels_growth g mode sources m
        (fun j hj => h j (by omega))
      have hne := h m (by omega)
      rw [not_forall] at hne
      rcases hne with ⟨x, hx⟩
      have hmono : ∀ y ∈ bfsLevels g mode sources m,
          y ∈ bfsLevels g mode sources (m + 1) :=
        fun y hy => bfsLevels_mono g mode sources m (m + 1) y (by omega) hy
      have hxin : x ∈ bfsLevels g mode sources (m + 1) ∧
          x ∉ bfsLevels g mode sources m := by
        by_cases h1 : x ∈ bfsLevels g mode sources m
        · exact absurd (iff_of_true (hmono x h1) h1) hx
        · by_cases h2 : x ∈ bfsLevels g mode sources (m + 1)
          · exact ⟨h2, h1⟩
          · exact absurd (iff_of_false h2 h1) hx
      have hlt := length_lt_of_nodup_ssub
        (bfsLevels g mode sources m) (bfsLevels g mode sources (m + 1))
        (bfsLevels_nodup g mode sources m)
        (bfsLevels_nodup g mode sources (m + 1))
        hmono x hxin.1 hxin.2
      omega

theorem bfsLevels_stab_exists (g : igraph_t) (mode : igraph_neimode_t)
    (sources : List Nat) (hwf : WellFormed g)
    (hs : ∀ s ∈ sources, s < g.n) :
    ∃ m, m ≤ g.n ∧ ∀ x, x ∈ bfsLevels g mode sources (m + 1) ↔
      x ∈ bfsLevels g mode sources m := by
  by_contra hc
  rw [not_exists] at hc
  have hall : ∀ j, j < g.n + 1 →
      ¬(∀ x, x ∈ bfsLevels g mode sources (j + 1) ↔
          x ∈ bfsLevels g mode sources j) := by
    intro j hj hstab
    exact hc j ⟨by omega, hstab⟩
  have hgrow := bfsLevels_growth g mode sources (g.n + 1) hall
  have hbound := length_le_of_nodup_lt (bfsLevels g mode sources (g.n + 1))
    (bfsLevels_nodup g mode sources (g.n + 1)) g.n
    (fun x hx => bfsLevels_lt g mode sources hwf hs (g.n + 1) x hx)
  omega

theorem bfsLevels_stab_forever (g : igraph_t) (mode : igraph_neimode_t)
    (sources : List Nat) (m : Nat)
    (hstab : ∀ x, x ∈ bfsLevels g mode sources (m + 1) ↔
      x ∈ bfsLevels g mode sources m) :
    ∀ j, m ≤ j → ∀ x, x ∈ bfsLevels g mode sources j ↔
      x ∈ bfsLevels g mode sources m := by
  intro j hj
  induction j, hj using Nat.le_induction with
  | base => exact fun x => Iff.rfl
  | succ j hj ihj =>
      intro x
      have hstep : ∀ y, y ∈ bfsLevels g mode sources (j + 1) ↔
          y ∈ bfsLevels g mode sources (m + 1) := by
        intro y
        show y ∈ bfsStep g mode (bfsLevels g mode sources j) ↔
          y ∈ bfsStep g mode (bfsLevels g mode sources m)
        rw [mem_bfsStep, mem_bfsStep]
        constructor
        · rintro (h | ⟨u, hu, ha⟩)
          · exact Or.inl ((ihj y).mp h)
          · exact Or.inr ⟨u, (ihj u).mp hu, ha⟩
        · rintro (h | ⟨u, hu, ha⟩)
          · exact Or.inl ((ihj y).mpr h)
          · exact Or.inr ⟨u, (ihj u).mpr hu, ha⟩
      rw [hstep x, hstab x]

theorem bfsLevels_top (g : igraph_t) (mode : igraph_neimode_t)
    (sources : List Nat) (hwf : WellFormed g)
    (hs : ∀ s ∈ sources, s < g.n) (j v : Nat)
    (h : v ∈ bfsLevels g mode sources j) : v ∈ bfsLevels g mode sources g.n := by
  rcases bfsLevels_stab_exists g mode sources hwf hs with ⟨m, hm, hstab⟩
  rcases Nat.lt_or_ge j (g.n + 1) with hj | hj
  · exact bfsLevels_mono g mode sources j g.n v (by omega) h
  · have h1 := (bfsLevels_stab_forever g mode sources m hstab j
      (by omega) v).mp h
    exact (bfsLevels_stab_forever g mode sources m hstab g.n
      (by omega) v).mpr h1

/-- C5: BFS shortest-path correctness.  Multi-source BFS assigns a vertex
the sentinel `none` exactly when no walk from any source reaches it, and
assigns it `some d` exactly when `d` is the length of a shortest walk from
the source set (a walk of length `d` exists and none shorter does) — the
first visit wins and finalizes the distance.  Concretely, on the directed
graph with edges `(0,1), (1,2), (0,2)`, BFS from vertex 0 reports
distance 1 to both vertex 1 and vertex 2.
spec-modelled: the BFS body behind igraph_shortest_paths is absent from
src (only igraph.h). -/
theorem c5_bfs_shortest_paths :
    (∀ (g : igraph_t) (mode : igraph_neimode_t) (sources : List Nat)
        (v : Nat), WellFormed g → (∀ s ∈ sources, s < g.n) →
      ((bfsDist g mode sources v = none ↔
          ∀ k, ∀ s ∈ sources, ¬ walkN g mode k s v) ∧
        (∀ d, bfsDist g mode sources v = some d ↔
          ((∃ s ∈ sources, walkN g mode d s v) ∧
            ∀ j, j < d → ∀ s ∈ sources, ¬ walkN g mode j s v)))) ∧
    igraph_shortest_paths gpaths [0] .IGRAPH_OUT =
      [[some 0, some 1, some 1]] := by
  constructor
  · intro g mode sources v hwf hs
    constructor
    · rw [bfsDist, firstHit_eq_none]
      constructor
      · intro h k s hsrc hw
        have h1 : v ∈ bfsLevels g mode sources k :=
          (mem_bfsLevels g mode sources k v).mpr
            ⟨k, Nat.le_refl k, s, hsrc, hw⟩
        have h2 := bfsLevels_top g mode sources hwf hs k v h1
        have h3 := h g.n (by omega) (by omega)
        rw [Bool.eq_false_iff] at h3
        exact h3 ((contains_iff_mem_nat _ _).mpr h2)
      · intro h j _ _
        cases hc : (bfsLevels g mode sources j).contains v
        · rfl
        · exfalso
          rcases (mem_bfsLevels g mode sources j v).mp
              ((contains_iff_mem_nat _ _).mp hc) with ⟨j', _, s, hs', hw⟩
          exact h j' s hs' hw
    · intro d
      rw [bfsDist, firstHit_eq_some]
      constructor
      · rintro ⟨-, hd2, hd3, hd4⟩
        have hv : v ∈ bfsLevels g mode sources d :=
          (contains_iff_mem_nat _ _).mp hd3
        have hmin : ∀ j, j < d → ∀ s ∈ sources, ¬ walkN g mode j s v := by
          intro j hjd s' hs'' hw'
          have hm : v ∈ bfsLevels g mode sources j :=
            (mem_bfsLevels g mode sources j v).mpr
              ⟨j, Nat.le_refl j, s', hs'', hw'⟩
          have hf := hd4 j (by omega) hjd
          rw [Bool.eq_false_iff] at hf
          exact hf ((contains_iff_mem_nat _ _).mpr hm)
        rcases (mem_bfsLevels g mode sources d v).mp hv with
          ⟨j, hj, s, hs', hw⟩
        rcases Nat.eq_or_lt_of_le hj with hj' | hj'
        · exact ⟨⟨s, hs', hj' ▸ hw⟩, hmin⟩
        · exact absurd hw (hmin j hj' s hs')
      · rintro ⟨⟨s, hs', hw⟩, hmin⟩
        have hpd : v ∈ bfsLevels g mode sources d :=
          (mem_bfsLevels g mode sources d v).mpr
            ⟨d, Nat.le_refl d, s, hs', hw⟩
        have htop := bfsLevels_top g mode sources hwf hs d v hpd
        rcases (mem_bfsLevels g mode sources g.n v).mp htop with
          ⟨j, hj, s', hs'', hw'⟩
        have hd_le : d ≤ g.n := by
          by_contra hc
          exact hmin j (by omega) s' hs'' hw'
        refine ⟨by omega, by omega, (contains_iff_mem_nat _ _).mpr hpd, ?_⟩
        intro j _ hjd
        cases hc : (bfsLevels g mode sources j).contains v
        · rfl
        · exfalso
          rcases (mem_bfsLevels g mode sources j v).mp
              ((contains_iff_mem_nat _ _).mp hc) with ⟨j', hj', s'', hs3, hw3⟩
          exact hmin j' (by omega) s'' hs3 hw3
  · decide

/-- Witness for C5: the general characterization instantiated on the
directed triangle graph, distance from source 0 to vertex 2. -/
theorem c5_bfs_shortest_paths_witness :
    bfsDist gpaths .IGRAPH_OUT [0] 2 = some 1 ↔
      ((∃ s ∈ [0], walkN gpaths .IGRAPH_OUT 1 s 2) ∧
        ∀ j, j < 1 → ∀ s ∈ [0], ¬ walkN gpaths .IGRAPH_OUT j s 2) :=
  ((c5_bfs_shortest_paths.1 gpaths .IGRAPH_OUT [0] 2
    ⟨rfl, by decide, by decide⟩ (by decide)).2) 1

/-- C7: betweenness centrality on the undirected path `0 - 1 - 2`: the
middle vertex scores strictly higher than the endpoints, which both score
exactly 0 (here the middle vertex scores 1).
spec-modelled: the Brandes body is absent from src (only igraph.h). -/
theorem c7_betweenness_path :
    igraph_betweenness gpath3 0 = 0 ∧ igraph_betweenness gpath3 2 = 0 ∧
    igraph_betweenness gpath3 0 < igraph_betweenness gpath3 1 ∧
    igraph_betweenness gpath3 2 < igraph_betweenness gpath3 1 := by
  have hc1 : bcContrib gpath3 1 (0, 2) = 1 := by
    unfold bcContrib
    rw [show sigmaThrough gpath3 (bmode gpath3) 1 0 2 = 1 by decide,
      show sigmaCount gpath3 (bmode gpath3) 0 2 = 1 by decide]
    norm_num
  have hc2 : bcContrib gpath3 1 (2, 0) = 1 := by
    unfold bcContrib
    rw [show sigmaThrough gpath3 (bmode gpath3) 1 2 0 = 1 by decide,
      show sigmaCount gpath3 (bmode gpath3) 2 0 = 1 by decide]
    norm_num
  have hz0 : ∀ p, bcContrib gpath3 0 p =
      (sigmaThrough gpath3 (bmode gpath3) 0 p.1 p.2 : ℚ) /
        (sigmaCount gpath3 (bmode gpath3) p.1 p.2 : ℚ) := fun p => rfl
  have h1 : igraph_betweenness gpath3 1 = 1 := by
    rw [igraph_betweenness,
      show bcPairs gpath3 1 = [(0, 2), (2, 0)] by decide]
    simp only [List.map_cons, List.map_nil, List.sum_cons, List.sum_nil,
      hc1, hc2, show gpath3.directed = false from rfl]
    norm_num
  have h0 : igraph_betweenness gpath3 0 = 0 := by
    rw [igraph_betweenness,
      show bcPairs gpath3 0 = [(1, 2), (2, 1)] by decide]
    simp only [List.map_cons, List.map_nil, List.sum_cons, List.sum_nil]
    rw [hz0 (1, 2), hz0 (2, 1),
      show sigmaThrough gpath3 (bmode gpath3) 0 1 2 = 0 by decide,
      show sigmaThrough gpath3 (bmode gpath3) 0 2 1 = 0 by decide]
    norm_num
  have h2 : igraph_betweenness gpath3 2 = 0 := by
    rw [igraph_betweenness,
      show bcPairs gpath3 2 = [(0, 1), (1, 0)] by decide]
    simp only [List.map_cons, List.map_nil, List.sum_cons, List.sum_nil]
    rw [show bcContrib gpath3 2 (0, 1) =
        (sigmaThrough gpath3 (bmode gpath3) 2 0 1 : ℚ) /
          (sigmaCount gpath3 (bmode gpath3) 0 1 : ℚ) from rfl,
      show bcContrib gpath3 2 (1, 0) =
        (sigmaThrough gpath3 (bmode gpath3) 2 1 0 : ℚ) /
          (sigmaCount gpath3 (bmode gpath3) 1 0 : ℚ) from rfl,
      show sigmaThrough gpath3 (bmode gpath3) 2 0 1 = 0 by decide,
      show sigmaThrough gpath3 (bmode gpath3) 2 1 0 = 0 by decide]
    norm_num
  rw [h0, h1, h2]
  norm_num

theorem adjb_all_iff (h : igraph_t) (u v : Nat) :
    adjb h .IGRAPH_ALL u v = true ↔
      ∃ k, k < no_of_edges h ∧
        ((fromAt h k = u ∧ toAt h k = v) ∨
          (fromAt h k = v ∧ toAt h k = u)) := by
  unfold adjb
  rw [contains_iff_mem_nat,
    show igraph_neighbors h u .IGRAPH_ALL =
      igraph_neighbors h u .IGRAPH_OUT ++ igraph_neighbors h u .IGRAPH_IN
      from rfl,
    List.mem_append, mem_neighbors_out, mem_neighbors_in]
  constructor
  · rintro (⟨k, hk, h1, h2⟩ | ⟨k, hk, h1, h2⟩)
    · exact ⟨k, hk, Or.inl ⟨h1, h2⟩⟩
    · exact ⟨k, hk, Or.inr ⟨h1, h2⟩⟩
  · rintro ⟨k, hk, (⟨h1, h2⟩ | ⟨h1, h2⟩)⟩
    · exact Or.inl ⟨k, hk, h1, h2⟩
    · exact Or.inr ⟨k, hk, h1, h2⟩

theorem adjb_all_symm (h : igraph_t) (u v : Nat) :
    adjb h .IGRAPH_ALL u v = adjb h .IGRAPH_ALL v u := by
  rw [Bool.eq_iff_iff, adjb_all_iff, adjb_all_iff]
  constructor
  · rintro ⟨k, hk, hor⟩
    exact ⟨k, hk, hor.symm⟩
  · rintro ⟨k, hk, hor⟩
    exact ⟨k, hk, hor.symm⟩

theorem no_of_edges_mstSub (g : igraph_t) (es : List Nat) :
    no_of_edges (mstSub g es) = es.length := by
  simp [no_of_edges, mstSub]

theorem fromAt_mstSub (g : igraph_t) (es : List Nat) (i : Nat)
    (hi : i < es.length) :
    fromAt (mstSub g es) i = fromAt g (es.get ⟨i, hi⟩) := by
  show (es.map (fromAt g)).getD i 0 = _
  rw [List.getD_eq_getElem?_getD,
    List.getElem?_eq_getElem (by simpa using hi)]
  simp [List.getElem_map]

theorem toAt_mstSub (g : igraph_t) (es : List Nat) (i : Nat)
    (hi : i < es.length) :
    toAt (mstSub g es) i = toAt g (es.get ⟨i, hi⟩) := by
  show (es.map (toAt g)).getD i 0 = _
  rw [List.getD_eq_getElem?_getD,
    List.getElem?_eq_getElem (by simpa using hi)]
  simp [List.getElem_map]

theorem adjb_mstSub_iff (g : igraph_t) (es : List Nat) (u v : Nat) :
    adjb (mstSub g es) .IGRAPH_ALL u v = true ↔
      ∃ k ∈ es, ((fromAt g k = u ∧ toAt g k = v) ∨
        (fromAt g k = v ∧ toAt g k = u)) := by
  rw [adjb_all_iff]
  constructor
  · rintro ⟨i, hi, hor⟩
    rw [no_of_edges_mstSub] at hi
    rw [fromAt_mstSub g es i hi, toAt_mstSub g es i hi] at hor
    exact ⟨es.get ⟨i, hi⟩, List.get_mem es i hi, hor⟩
  · rintro ⟨k, hk, hor⟩
    rcases List.mem_iff_getElem.mp hk with ⟨i, hi, hik⟩
    refine ⟨i, by rw [no_of_edges_mstSub]; exact hi, ?_⟩
    rw [fromAt_mstSub g es i hi, toAt_mstSub g es i hi]
    show (fromAt g es[i] = u ∧ toAt g es[i] = v) ∨
      (fromAt g es[i] = v ∧ toAt g es[i] = u)
    rw [hik]
    exact hor

theorem walkN_trans (h : igraph_t) (mode : igraph_neimode_t) :
    ∀ (j1 j2 a b c : Nat), walkN h mode j1 a b → walkN h mode j2 b c →
      walkN h mode (j1 + j2) a c
  | 0, j2, a, b, c => by
      intro h1 h2
      rw [walkN] at h1
      rw [Nat.zero_add]
      exact h1 ▸ h2
  | j1 + 1, j2, a, b, c => by
      intro h1 h2
      rw [walkN] at h1
      rcases h1 with ⟨w, hw, h1⟩
      have hrw : j1 + 1 + j2 = (j1 + j2) + 1 := by omega
      rw [hrw, walkN]
      exact ⟨w, hw, walkN_trans h mode j1 j2 w b c h1 h2⟩

theorem walkN_all_symm (h : igraph_t) :
    ∀ (j a b : Nat), walkN h .IGRAPH_ALL j a b → walkN h .IGRAPH_ALL j b a
  | 0, a, b => by
      intro h1
      rw [walkN] at h1 ⊢
      exact h1.symm
  | j + 1, a, b => by
      intro h1
      rw [walkN] at h1
      rcases h1 with ⟨w, hw, h1⟩
      exact (walkN_succ_iff h .IGRAPH_ALL j b a).mpr
        ⟨w, walkN_all_symm h j w b h1, adjb_all_symm h a w ▸ hw⟩

theorem walkN_mono (h1 h2 : igraph_t)
    (hadj : ∀ u v, adjb h1 .IGRAPH_ALL u v = true →
      adjb h2 .IGRAPH_ALL u v = true) :
    ∀ (j a b : Nat), walkN h1 .IGRAPH_ALL j a b → walkN h2 .IGRAPH_ALL j a b
  | 0, a, b => by
      intro hw
      rw [walkN] at hw ⊢
      exact hw
  | j + 1, a, b => by
      intro hw
      rw [walkN] at hw ⊢
      rcases hw with ⟨w, hw1, hw2⟩
      exact ⟨w, hadj a w hw1, walkN_mono h1 h2 hadj j w b hw2⟩

theorem wconn_refl (h : igraph_t) (u : Nat) : wconn h u u := ⟨0, rfl⟩

theorem wconn_symm (h : igraph_t) (u v : Nat) (hc : wconn h u v) :
    wconn h v u := by
  rcases hc with ⟨j, hw⟩
  exact ⟨j, walkN_all_symm h j u v hw⟩

theorem wconn_trans (h : igraph_t) (u v w : Nat) (h1 : wconn h u v)
    (h2 : wconn h v w) : wconn h u w := by
  rcases h1 with ⟨j1, hw1⟩
  rcases h2 with ⟨j2, hw2⟩
  exact ⟨j1 + j2, walkN_trans h .IGRAPH_ALL j1 j2 u v w hw1 hw2⟩

theorem wconn_of_adjb (h : igraph_t) (u v : Nat)
    (ha : adjb h .IGRAPH_ALL u v = true) : wconn h u v := by
  refine ⟨1, v, ha, ?_⟩
  rw [walkN]

theorem wconn_mstSub_mono (g : igraph_t) (es es' : List Nat)
    (hsub : ∀ k ∈ es, k ∈ es') (u v : Nat)
    (hc : wconn (mstSub g es) u v) : wconn (mstSub g es') u v := by
  rcases hc with ⟨j, hw⟩
  refine ⟨j, walkN_mono (mstSub g es) (mstSub g es') ?_ j u v hw⟩
  intro a b hab
  rcases (adjb_mstSub_iff g es a b).mp hab with ⟨k, hk, hor⟩
  exact (adjb_mstSub_iff g es' a b).mpr ⟨k, hsub k hk, hor⟩

theorem adjb_mstSub_le (g : igraph_t) (es : List Nat)
    (hE : ∀ k ∈ es, k < no_of_edges g) (u v : Nat)
    (hab : adjb (mstSub g es) .IGRAPH_ALL u v = true) :
    adjb g .IGRAPH_ALL u v = true := by
  rcases (adjb_mstSub_iff g es u v).mp hab with ⟨k, hk, hor⟩
  exact (adjb_all_iff g u v).mpr ⟨k, hE k hk, hor⟩

theorem crossing_of_walk (g : igraph_t) (vis : List Nat) :
    ∀ (j u v : Nat), walkN g .IGRAPH_ALL j u v → u ∈ vis → v ∉ vis →
      ∃ k, k < no_of_edges g ∧ crossing g vis k = true
  | 0, u, v => by
      intro hw hu hv
      rw [walkN] at hw
      exact absurd (hw ▸ hu) hv
  | j + 1, u, v => by
      intro hw hu hv
      rw [walkN] at hw
      rcases hw with ⟨w, hadj, hwalk⟩
      by_cases hwv : w ∈ vis
      · exact crossing_of_walk g vis j w v hwalk hwv hv
      · rcases (adjb_all_iff g u w).mp hadj with ⟨k, hk, hor⟩
        refine ⟨k, hk, ?_⟩
        unfold crossing
        have hcu : vis.contains u = true := (contains_iff_mem_nat _ _).mpr hu
        have hcw : vis.contains w = false := by
          rw [Bool.eq_false_iff]
          intro hc
          exact hwv ((contains_iff_mem_nat _ _).mp hc)
        rcases hor with ⟨h1, h2⟩ | ⟨h1, h2⟩
        · rw [h1, h2, hcu, hcw]
          rfl
        · rw [h1, h2, hcu, hcw]
          rfl

theorem no_crossing_no_wconn (g : igraph_t) (vis : List Nat)
    (hnc : ∀ k, k < no_of_edges g → crossing g vis k = false)
    (u v : Nat) (hu : u ∈ vis) (hv : v ∉ vis) : ¬ wconn g u v := by
  rintro ⟨j, hw⟩
  rcases crossing_of_walk g vis j u v hw hu hv with ⟨k, hk, hcross⟩
  rw [hnc k hk] at hcross
  exact absurd hcross (by simp)

theorem pickMin_foldl_some (w : List Int) :
    ∀ (cands : List Nat) (b : Nat),
      cands.foldl (fun best k =>
        match best with
        | none => some k
        | some b => if w.getD k 0 < w.getD b 0 then some k else some b)
        (some b) ≠ none
  | [], b => by simp
  | c :: cs, b => by
      show List.foldl _ (if w.getD c 0 < w.getD b 0 then some c else some b)
        cs ≠ none
      split
      · exact pickMin_foldl_some w cs c
      · exact pickMin_foldl_some w cs b

theorem pickMin_eq_none (w : List Int) (cands : List Nat)
    (h : pickMin w cands = none) : cands = [] := by
  cases cands with
  | nil => rfl
  | cons c cs =>
      exfalso
      unfold pickMin at h
      exact pickMin_foldl_some w cs c h

theorem pickMin_foldl_mem (w : List Int) :
    ∀ (cands : List Nat) (acc : Option Nat) (k : Nat),
      cands.foldl (fun best x =>
        match best with
        | none => some x
        | some b => if w.getD x 0 < w.getD b 0 then some x else some b)
        acc = some k →
      acc = some k ∨ k ∈ cands
  | [], acc, k => by
      intro h
      exact Or.inl h
  | c :: cs, acc, k => by
      intro h
      rw [List.foldl_cons] at h
      rcases acc with _ | b
      · rcases pickMin_foldl_mem w cs (some c) k h with hstep | hstep
        · simp only [Option.some.injEq] at hstep
          exact Or.inr (hstep ▸ List.mem_cons_self c cs)
        · exact Or.inr (List.mem_cons_of_mem c hstep)
      · by_cases hlt : w.getD c 0 < w.getD b 0
        · simp only [hlt, if_true] at h
          rcases pickMin_foldl_mem w cs (some c) k h with hstep | hstep
          · simp only [Option.some.injEq] at hstep
            exact Or.inr (hstep ▸ List.mem_cons_self c cs)
          · exact Or.inr (List.mem_cons_of_mem c hstep)
        · simp only [hlt, if_false] at h
          rcases pickMin_foldl_mem w cs (some b) k h with hstep | hstep
          · exact Or.inl hstep
          · exact Or.inr (List.mem_cons_of_mem c hstep)

theorem pickMin_mem (w : List Int) (cands : List Nat) (k : Nat)
    (h : pickMin w cands = some k) : k ∈ cands := by
  rcases pickMin_foldl_mem w cands none k h with hc | hc
  · exact absurd hc (by simp)
  · exact hc

theorem wconn_isolated (g : igraph_t) (es : List Nat) (x : Nat)
    (hx : ∀ k ∈ es, fromAt g k ≠ x ∧ toAt g k ≠ x) :
    ∀ (j v : Nat), walkN (mstSub g es) .IGRAPH_ALL j v x → v = x
  | 0, v => by
      intro hw
      rw [walkN] at hw
      exact hw
  | j + 1, v => by
      intro hw
      rcases (walkN_succ_iff (mstSub g es) .IGRAPH_ALL j v x).mp hw with
        ⟨u, -, hadj⟩
      rcases (adjb_mstSub_iff g es u x).mp hadj with ⟨k, hk, hor⟩
      rcases hor with ⟨-, h2⟩ | ⟨h1, -⟩
      · exact absurd h2 (hx k hk).2
      · exact absurd h1 (hx k hk).1

theorem wconn_excise (g : igraph_t) (S : List Nat) (k0 x y : Nat)
    (hor0 : (fromAt g k0 = y ∧ toAt g k0 = x) ∨
      (fromAt g k0 = x ∧ toAt g k0 = y))
    (hxS : ∀ k ∈ S, fromAt g k ≠ x ∧ toAt g k ≠ x) (hxy : y ≠ x) :
    ∀ (j a b : Nat), a ≠ x → b ≠ x →
      walkN (mstSub g (S ++ [k0])) .IGRAPH_ALL j a b →
      wconn (mstSub g S) a b := by
  intro j
  induction j using Nat.strong_induction_on with
  | _ j ih =>
    intro a b ha hb hw
    cases j with
    | zero =>
        rw [walkN] at hw
        exact hw ▸ wconn_refl _ a
    | succ j' =>
        rw [walkN] at hw
        rcases hw with ⟨w, hadj, hwalk⟩
        by_cases hwx : w = x
        · have hay : a = y := by
            rw [hwx] at hadj
            rcases (adjb_mstSub_iff g (S ++ [k0]) a x).mp hadj with
              ⟨k, hk, hork⟩
            rcases List.mem_append.mp hk with hkS | hk0'
            · rcases hork with ⟨-, h2⟩ | ⟨h1, -⟩
              · exact absurd h2 (hxS k hkS).2
              · exact absurd h1 (hxS k hkS).1
            · have hkk : k = k0 := by simpa using hk0'
              rw [hkk] at hork
              rcases hor0 with ⟨hf, ht⟩ | ⟨hf, ht⟩ <;>
                rcases hork with ⟨h1, h2⟩ | ⟨h1, h2⟩ <;> omega
          rw [hwx] at hwalk
          cases j' with
          | zero =>
              rw [walkN] at hwalk
              exact absurd hwalk.symm hb
          | succ j'' =>
              rw [walkN] at hwalk
              rcases hwalk with ⟨w', hadj2, hwalk2⟩
              have hw'y : w' = y := by
                rcases (adjb_mstSub_iff g (S ++ [k0]) x w').mp hadj2 with
                  ⟨k, hk, hork⟩
                rcases List.mem_append.mp hk with hkS | hk0'
                · rcases hork with ⟨h1, -⟩ | ⟨-, h2⟩
                  · exact absurd h1 (hxS k hkS).1
                  · exact absurd h2 (hxS k hkS).2
                · have hkk : k = k0 := by simpa using hk0'
                  rw [hkk] at hork
                  rcases hor0 with ⟨hf, ht⟩ | ⟨hf, ht⟩ <;>
                    rcases hork with ⟨h1, h2⟩ | ⟨h1, h2⟩ <;> omega
              rw [hw'y] at hwalk2
              rw [hay]
              exact ih j'' (by omega) y b hxy hb hwalk2
        · have hadjS : adjb (mstSub g S) .IGRAPH_ALL a w = true := by
            rcases (adjb_mstSub_iff g (S ++ [k0]) a w).mp hadj with
              ⟨k, hk, hork⟩
            rcases List.mem_append.mp hk with hkS | hk0'
            · exact (adjb_mstSub_iff g S a w).mpr ⟨k, hkS, hork⟩
            · exfalso
              have hkk : k = k0 := by simpa using hk0'
              rw [hkk] at hork
              rcases hor0 with ⟨hf, ht⟩ | ⟨hf, ht⟩ <;>
                rcases hork with ⟨h1, h2⟩ | ⟨h1, h2⟩ <;> omega
          exact wconn_trans _ a w b (wconn_of_adjb _ a w hadjS)
            (ih j' (by omega) w b hwx hb hwalk)

theorem primInv_extend (g : igraph_t) (st : List Nat × List Nat)
    (hwf : WellFormed g) (h : PrimInv g st) (k x y : Nat)
    (hkE : k < no_of_edges g)
    (hor : (fromAt g k = y ∧ toAt g k = x) ∨
      (fromAt g k = x ∧ toAt g k = y))
    (hy : y ∈ st.1) (hx : x ∉ st.1) :
    PrimInv g (x :: st.1, st.2 ++ [k]) := by
  obtain ⟨hV1, hV2, hE1, hE2, hE3, hC1, hB1⟩ := h
  have hxn : x < g.n := by
    rcases hor with ⟨-, ht⟩ | ⟨hf, -⟩
    · exact ht ▸ toAt_lt g hwf k hkE
    · exact hf ▸ fromAt_lt g hwf k hkE
  have hknotin : k ∉ st.2 := by
    intro hc
    rcases hor with ⟨-, ht⟩ | ⟨hf, -⟩
    · exact hx (ht ▸ (hE3 k hc).2)
    · exact hx (hf ▸ (hE3 k hc).1)
  have hxy : y ≠ x := fun hc => hx (hc ▸ hy)
  have hadjxy : adjb (mstSub g (st.2 ++ [k])) .IGRAPH_ALL x y = true :=
    (adjb_mstSub_iff g _ x y).mpr
      ⟨k, List.mem_append.mpr (Or.inr (by simp)), hor.symm⟩
  have hgxy : adjb g .IGRAPH_ALL x y = true :=
    (adjb_all_iff g x y).mpr ⟨k, hkE, hor.symm⟩
  have hsub : ∀ k' ∈ st.2, k' ∈ st.2 ++ [k] :=
    fun k' hk' => List.mem_append.mpr (Or.inl hk')
  refine ⟨?_, ?_, ?_, ?_, ?_, ?_, ?_⟩
  · intro v hv
    rcases List.mem_cons.mp hv with hvx | hv
    · rw [hvx]; exact hxn
    · exact hV1 v hv
  · exact List.nodup_cons.mpr ⟨hx, hV2⟩
  · intro k' hk'
    rcases List.mem_append.mp hk' with hk' | hk'
    · exact hE1 k' hk'
    · have hkk : k' = k := by simpa using hk'
      rw [hkk]; exact hkE
  · rw [List.nodup_append]
    refine ⟨hE2, List.nodup_singleton k, ?_⟩
    intro a ha hak
    have haa : a = k := by simpa using hak
    exact hknotin (haa ▸ ha)
  · intro k' hk'
    rcases List.mem_append.mp hk' with hk' | hk'
    · exact ⟨List.mem_cons_of_mem x (hE3 k' hk').1,
        List.mem_cons_of_mem x (hE3 k' hk').2⟩
    · have hkk : k' = k := by simpa using hk'
      rw [hkk]
      rcases hor with ⟨hf, ht⟩ | ⟨hf, ht⟩
      · rw [hf, ht]
        exact ⟨List.mem_cons_of_mem x hy, List.mem_cons_self x st.1⟩
      · rw [hf, ht]
        exact ⟨List.mem_cons_self x st.1, List.mem_cons_of_mem x hy⟩
  · intro u hu v hv hguv
    rcases List.mem_cons.mp hu with hux | humem
    · rcases List.mem_cons.mp hv with hvx | hvmem
      · rw [hux, hvx]; exact wconn_refl _ x
      · have hgv : wconn g x v := by rw [← hux]; exact hguv
        have hyv : wconn g y v := wconn_trans g y x v
          (wconn_of_adjb g y x (by rw [adjb_all_symm]; exact hgxy)) hgv
        have hS'yv := wconn_mstSub_mono g st.2 (st.2 ++ [k]) hsub y v
          (hC1 y hy v hvmem hyv)
        rw [hux]
        exact wconn_trans _ x y v (wconn_of_adjb _ x y hadjxy) hS'yv
    · rcases List.mem_cons.mp hv with hvx | hvmem
      · have hgu : wconn g u x := by rw [← hvx]; exact hguv
        have huy : wconn g u y := wconn_trans g u x y hgu
          (wconn_of_adjb g x y hgxy)
        have hS'uy := wconn_mstSub_mono g st.2 (st.2 ++ [k]) hsub u y
          (hC1 u humem y hy huy)
        rw [hvx]
        exact wconn_trans _ u y x hS'uy
          (wconn_of_adjb _ y x (by rw [adjb_all_symm]; exact hadjxy))
      · exact wconn_mstSub_mono g st.2 (st.2 ++ [k]) hsub u v
          (hC1 u humem v hvmem hguv)
  · intro k' hk'
    rcases List.mem_append.mp hk' with hk'old | hk'new
    · rw [List.erase_append_left [k] hk'old]
      rintro ⟨j, hwalk⟩
      have hxS : ∀ k2 ∈ st.2.erase k', fromAt g k2 ≠ x ∧ toAt g k2 ≠ x := by
        intro k2 hk2
        have hk2' := List.mem_of_mem_erase hk2
        exact ⟨fun hc => hx (hc ▸ (hE3 k2 hk2').1),
          fun hc => hx (hc ▸ (hE3 k2 hk2').2)⟩
      have hfa : fromAt g k' ≠ x := fun hc => hx (hc ▸ (hE3 k' hk'old).1)
      have hta : toAt g k' ≠ x := fun hc => hx (hc ▸ (hE3 k' hk'old).2)
      exact hB1 k' hk'old (wconn_excise g (st.2.erase k') k x y hor hxS hxy
        j (fromAt g k') (toAt g k') hfa hta hwalk)
    · have hkk : k' = k := by simpa using hk'new
      rw [hkk, List.erase_append_right [k] hknotin, List.erase_cons_head,
        List.append_nil]
      intro hcon
      have hiso : ∀ k2 ∈ st.2, fromAt g k2 ≠ x ∧ toAt g k2 ≠ x := by
        intro k2 hk2
        exact ⟨fun hc => hx (hc ▸ (hE3 k2 hk2).1),
          fun hc => hx (hc ▸ (hE3 k2 hk2).2)⟩
      rcases hor with ⟨hf, ht⟩ | ⟨hf, ht⟩
      · rw [hf, ht] at hcon
        rcases hcon with ⟨j, hwalk⟩
        exact hxy (wconn_isolated g st.2 x hiso j y hwalk)
      · rw [hf, ht] at hcon
        rcases wconn_symm _ x y hcon with ⟨j, hwalk⟩
        exact hxy (wconn_isolated g st.2 x hiso j y hwalk)

theorem primStep_inv (g : igraph_t) (w : List Int) (st : List Nat × List Nat)
    (hwf : WellFormed g) (h : PrimInv g st) :
    PrimInv g (primStep g w st) ∧
      ((∀ v, v < g.n → v ∈ st.1) ∨
        (primStep g w st).1.length = st.1.length + 1) := by
  rcases hpick : pickMin w
      ((List.range (no_of_edges g)).filter (crossing g st.1)) with _ | k
  · have hfilter : (List.range (no_of_edges g)).filter (crossing g st.1) =
        [] := pickMin_eq_none _ _ hpick
    have hnc : ∀ k', k' < no_of_edges g → crossing g st.1 k' = false := by
      intro k' hk'
      have hn := List.filter_eq_nil_iff.mp hfilter k' (List.mem_range.mpr hk')
      rcases hcv : crossing g st.1 k' with _ | _
      · rfl
      · exact absurd hcv hn
    rcases hfind : (List.range g.n).find? (fun v => !st.1.contains v)
      with _ | v
    · have heq : primStep g w st = st := by
        unfold primStep
        rw [hpick, hfind]
      rw [heq]
      refine ⟨h, Or.inl ?_⟩
      intro v hv
      have hnone := List.find?_eq_none.mp hfind v (List.mem_range.mpr hv)
      have hcv : st.1.contains v = true := by
        rcases hcv : st.1.contains v with _ | _
        · exact absurd (by rw [hcv]; rfl) hnone
        · rfl
      exact (contains_iff_mem_nat _ _).mp hcv
    · have heq : primStep g w st = (v :: st.1, st.2) := by
        unfold primStep
        rw [hpick, hfind]
      rw [heq]
      obtain ⟨hV1, hV2, hE1, hE2, hE3, hC1, hB1⟩ := h
      have hvmem : v < g.n := List.mem_range.mp (List.mem_of_find?_eq_some hfind)
      have hvnot : v ∉ st.1 := by
        have hp := List.find?_some hfind
        intro hc
        rw [(contains_iff_mem_nat _ _).mpr hc] at hp
        exact absurd hp (by simp)
      refine ⟨⟨?_, List.nodup_cons.mpr ⟨hvnot, hV2⟩, hE1, hE2, ?_, ?_, hB1⟩,
        Or.inr rfl⟩
      · intro u hu
        rcases List.mem_cons.mp hu with huv | hu
        · rw [huv]; exact hvmem
        · exact hV1 u hu
      · intro k' hk'
        exact ⟨List.mem_cons_of_mem v (hE3 k' hk').1,
          List.mem_cons_of_mem v (hE3 k' hk').2⟩
      · intro u hu v' hv' hguv
        rcases List.mem_cons.mp hu with huv | hu
        · rcases List.mem_cons.mp hv' with hv'v | hv'
          · rw [huv, hv'v]; exact wconn_refl _ v
          · exfalso
            have hg : wconn g v v' := by rw [← huv]; exact hguv
            exact no_crossing_no_wconn g st.1 hnc v' v hv' hvnot
              (wconn_symm g v v' hg)
        · rcases List.mem_cons.mp hv' with hv'v | hv'
          · exfalso
            have hg : wconn g u v := by rw [← hv'v]; exact hguv
            exact no_crossing_no_wconn g st.1 hnc u v hu hvnot hg
          · exact hC1 u hu v' hv' hguv
  · have hkmem := pickMin_mem w _ k hpick
    obtain ⟨hkrange, hkcross⟩ := List.mem_filter.mp hkmem
    have hkE : k < no_of_edges g := List.mem_range.mp hkrange
    unfold crossing at hkcross
    have heq : primStep g w st =
        ((if st.1.contains (fromAt g k) then toAt g k else fromAt g k)
          :: st.1, st.2 ++ [k]) := by
      unfold primStep
      rw [hpick]
    rw [heq]
    by_cases hcf : st.1.contains (fromAt g k) = true
    · have hct : st.1.contains (toAt g k) = false := by
        rcases hctv : st.1.contains (toAt g k) with _ | _
        · rfl
        · rw [hcf, hctv] at hkcross
          exact absurd hkcross (by simp)
      have hy : fromAt g k ∈ st.1 := (contains_iff_mem_nat _ _).mp hcf
      have hx : toAt g k ∉ st.1 := by
        intro hc
        rw [(contains_iff_mem_nat _ _).mpr hc] at hct
        exact absurd hct (by simp)
      rw [if_pos hcf]
      exact ⟨primInv_extend g st hwf h k (toAt g k) (fromAt g k) hkE
        (Or.inl ⟨rfl, rfl⟩) hy hx, Or.inr rfl⟩
    · have hcf' : st.1.contains (fromAt g k) = false := by
        rcases hcfv : st.1.contains (fromAt g k) with _ | _
        · rfl
        · exact absurd hcfv hcf
      have hct : st.1.contains (toAt g k) = true := by
        rcases hctv : st.1.contains (toAt g k) with _ | _
        · rw [hcf', hctv] at hkcross
          exact absurd hkcross (by simp)
        · rfl
      have hy : toAt g k ∈ st.1 := (contains_iff_mem_nat _ _).mp hct
      have hx : fromAt g k ∉ st.1 := fun hc =>
        hcf ((contains_iff_mem_nat _ _).mpr hc)
      rw [if_neg hcf]
      exact ⟨primInv_extend g st hwf h k (fromAt g k) (toAt g k) hkE
        (Or.inr ⟨rfl, rfl⟩) hy hx, Or.inr rfl⟩

theorem primStep_subset (g : igraph_t) (w : List Int)
    (st : List Nat × List Nat) (v : Nat) (hv : v ∈ st.1) :
    v ∈ (primStep g w st).1 := by
  unfold primStep
  rcases pickMin w ((List.range (no_of_edges g)).filter (crossing g st.1))
    with _ | k
  · rcases (List.range g.n).find? (fun x => !st.1.contains x) with _ | u
    · exact hv
    · exact List.mem_cons_of_mem u hv
  · exact List.mem_cons_of_mem _ hv

theorem primGo_subset (g : igraph_t) (w : List Int) :
    ∀ (fuel : Nat) (st : List Nat × List Nat) (v : Nat), v ∈ st.1 →
      v ∈ (primGo g w fuel st).1
  | 0, st, v => by
      intro hv
      rw [primGo]
      exact hv
  | fuel + 1, st, v => by
      intro hv
      rw [primGo]
      exact primGo_subset g w fuel (primStep g w st) v
        (primStep_subset g w st v hv)

theorem primGo_inv (g : igraph_t) (w : List Int) (hwf : WellFormed g) :
    ∀ (fuel : Nat) (st : List Nat × List Nat), PrimInv g st →
      PrimInv g (primGo g w fuel st) ∧
        ((∀ v, v < g.n → v ∈ (primGo g w fuel st).1) ∨
          (primGo g w fuel st).1.length ≥ st.1.length + fuel)
  | 0, st => by
      intro h
      refine ⟨h, Or.inr ?_⟩
      rw [primGo]
      omega
  | fuel + 1, st => by
      intro h
      rw [primGo]
      rcases primStep_inv g w st hwf h with ⟨hstep, hgrow⟩
      rcases primGo_inv g w hwf fuel (primStep g w st) hstep with ⟨hres, hcomp⟩
      refine ⟨hres, ?_⟩
      rcases hcomp with hcomp | hlen
      · exact Or.inl hcomp
      · rcases hgrow with hfull | hone
        · left
          intro v hv
          exact primGo_subset g w fuel (primStep g w st) v
            (primStep_subset g w st v (hfull v hv))
        · right
          omega

theorem complete_of_length (vis : List Nat) (n : Nat) (hnd : vis.Nodup)
    (hlt : ∀ v ∈ vis, v < n) (hlen : n ≤ vis.length) :
    ∀ v, v < n → v ∈ vis := by
  have hsub : vis.toFinset ⊆ Finset.range n := by
    intro x hx
    rw [Finset.mem_range]
    exact hlt x (List.mem_toFinset.mp hx)
  have hcard : (Finset.range n).card ≤ vis.toFinset.card := by
    rw [List.toFinset_card_of_nodup hnd, Finset.card_range]
    exact hlen
  have heq := Finset.eq_of_subset_of_card_le hsub hcard
  intro v hv
  rw [← List.mem_toFinset, heq, Finset.mem_range]
  exact hv

theorem prim_spanning_forest (g : igraph_t) (w : List Int) (start : Nat)
    (hwf : WellFormed g) (hstart : start < g.n) :
    (∀ k ∈ igraph_minimum_spanning_tree_prim g w start,
      k < no_of_edges g) ∧
    (igraph_minimum_spanning_tree_prim g w start).Nodup ∧
    (∀ u v, u < g.n → v < g.n →
      (wconn (mstSub g (igraph_minimum_spanning_tree_prim g w start)) u v ↔
        wconn g u v)) ∧
    (∀ k ∈ igraph_minimum_spanning_tree_prim g w start,
      ¬ wconn
        (mstSub g ((igraph_minimum_spanning_tree_prim g w start).erase k))
        (fromAt g k) (toAt g k)) := by
  have hinit : PrimInv g ([start], []) := by
    refine ⟨?_, List.nodup_singleton start, ?_, List.nodup_nil, ?_, ?_, ?_⟩
    · intro v hv
      have hvs : v = start := by simpa using hv
      rw [hvs]
      exact hstart
    · intro k hk
      exact absurd hk (by simp)
    · intro k hk
      exact absurd hk (by simp)
    · intro u hu v hv _
      have hu' : u = start := by simpa using hu
      have hv' : v = start := by simpa using hv
      rw [hu', hv']
      exact wconn_refl _ start
    · intro k hk
      exact absurd hk (by simp)
  rcases primGo_inv g w hwf (g.n - 1) ([start], []) hinit with ⟨hres, hcomp⟩
  obtain ⟨hV1, hV2, hE1, hE2, hE3, hC1, hB1⟩ := hres
  have hfull : ∀ v, v < g.n → v ∈ (primGo g w (g.n - 1) ([start], [])).1 := by
    rcases hcomp with hcomp | hlen
    · exact hcomp
    · have h1 : (([start], ([] : List Nat)) :
          List Nat × List Nat).1.length = 1 := rfl
      exact complete_of_length _ g.n hV2 hV1 (by omega)
  unfold igraph_minimum_spanning_tree_prim
  refine ⟨hE1, hE2, ?_, hB1⟩
  intro u v hu hv
  constructor
  · rintro ⟨j, hwalk⟩
    exact ⟨j, walkN_mono _ g
      (fun a b hab => adjb_mstSub_le g _ hE1 a b hab) j u v hwalk⟩
  · intro hguv
    exact hC1 u (hfull u hu) v (hfull v hv) hguv

/-- C6: Prim's minimum spanning tree.  On the undirected 4-vertex graph
with edges `(0,1,w=1), (1,2,w=2), (2,3,w=3), (0,3,w=10)` Prim's algorithm
selects the edge set `{0, 1, 2}` (the edges `(0,1), (1,2), (2,3)`) with
total weight 6 from every traversal start, under the lowest-edge-id
tie-break.  On disconnected input the operation returns a spanning forest
rather than an error: on the concrete disconnected 5-vertex input it
returns all three edges, covering both components, and in general, for
every well-formed graph, weights and valid start vertex, the selected
edges are distinct valid edge ids whose subgraph connects exactly the
pairs the input graph connects (it spans every component) and in which
every selected edge is a bridge (the forest property: no selected edge
lies on a cycle of the selection).
spec-modelled: the Prim body is absent from src (only igraph.h). -/
theorem c6_prim_mst :
    (List.insertionSort (· ≤ ·)
        (igraph_minimum_spanning_tree_prim gmst wmst 0) = [0, 1, 2] ∧
      List.insertionSort (· ≤ ·)
        (igraph_minimum_spanning_tree_prim gmst wmst 1) = [0, 1, 2] ∧
      List.insertionSort (· ≤ ·)
        (igraph_minimum_spanning_tree_prim gmst wmst 2) = [0, 1, 2] ∧
      List.insertionSort (· ≤ ·)
        (igraph_minimum_spanning_tree_prim gmst wmst 3) = [0, 1, 2]) ∧
    (mstWeight wmst (igraph_minimum_spanning_tree_prim gmst wmst 0) = 6 ∧
      mstWeight wmst (igraph_minimum_spanning_tree_prim gmst wmst 1) = 6 ∧
      mstWeight wmst (igraph_minimum_spanning_tree_prim gmst wmst 2) = 6 ∧
      mstWeight wmst (igraph_minimum_spanning_tree_prim gmst wmst 3) = 6) ∧
    (List.insertionSort (· ≤ ·)
        (igraph_minimum_spanning_tree_prim gdisc wdisc 0) = [0, 1, 2] ∧
      (igraph_minimum_spanning_tree_prim gdisc wdisc 0).length =
        igraph_vcount gdisc - 2) ∧
    (∀ (g : igraph_t) (w : List Int) (start : Nat),
      WellFormed g → start < g.n →
      (∀ k ∈ igraph_minimum_spanning_tree_prim g w start,
        k < no_of_edges g) ∧
      (igraph_minimum_spanning_tree_prim g w start).Nodup ∧
      (∀ u v, u < g.n → v < g.n →
        (wconn (mstSub g (igraph_minimum_spanning_tree_prim g w start)) u v ↔
          wconn g u v)) ∧
      (∀ k ∈ igraph_minimum_spanning_tree_prim g w start,
        ¬ wconn
          (mstSub g ((igraph_minimum_spanning_tree_prim g w start).erase k))
          (fromAt g k) (toAt g k))) := by
  refine ⟨by decide, by decide, by decide, ?_⟩
  intro g w start hwf hstart
  exact prim_spanning_forest g w start hwf hstart

/-- Witness for C6: the spanning-forest guarantee instantiated on the
concrete disconnected input. -/
theorem c6_prim_mst_witness :
    (∀ k ∈ igraph_minimum_spanning_tree_prim gdisc wdisc 0,
      k < no_of_edges gdisc) ∧
    (igraph_minimum_spanning_tree_prim gdisc wdisc 0).Nodup ∧
    (∀ u v, u < gdisc.n → v < gdisc.n →
      (wconn (mstSub gdisc (igraph_minimum_spanning_tree_prim gdisc wdisc 0))
          u v ↔ wconn gdisc u v)) ∧
    (∀ k ∈ igraph_minimum_spanning_tree_prim gdisc wdisc 0,
      ¬ wconn
        (mstSub gdisc
          ((igraph_minimum_spanning_tree_prim gdisc wdisc 0).erase k))
        (fromAt gdisc k) (toAt gdisc k)) :=
  c6_prim_mst.2.2.2 gdisc wdisc 0 ⟨rfl, by decide, by decide⟩ (by decide)
